import Mathlib

/-!
# Verification of rust-cssparser claims

A shallow embedding of the rust-cssparser sources:

* `src/ast.rs` — the component-value data model (`ComponentValue`, `NumericValue`,
  `SkipWhitespaceIterator`).
* `src/nth.rs` — the `An+B` parser `parse_nth` and its helpers.
* `src/src/rules_and_declarations.rs` — the rule / declaration engine
  (`parse_at_rule`, `parse_qualified_rule`, `DeclarationListParser`,
  `RuleListParser`).

The delimited `Parser` type, its `Token` type and the tokenizer are part of the
repository but are not among the provided source files; they are modelled from
the specification (sections 3, 4.B and 4.D) and each such definition carries a
doc comment starting with `Modelled from the spec:`.

Rust machine integers are embedded as `Int` with explicit two's-complement
truncation where the source casts (`as i32`).  Fallible Rust code returns
`Except`; code that can `panic` (out-of-bounds indexing, failed `assert!`,
`unreachable!`) returns a `PanicOr` value.
-/

/-- Outcome of running Rust code that may `panic` (failed `assert!`,
out-of-bounds indexing, `unreachable!`). -/
inductive PanicOr (α : Type) where
  | panicked : PanicOr α
  | ok : α → PanicOr α
deriving DecidableEq, Repr

/-! ## `src/ast.rs`: the data model -/

/-- `SourceLocation` from `src/ast.rs`: 1-based line and column. -/
structure SourceLocation where
  line : Nat
  column : Nat
deriving DecidableEq, Repr

/-- `NumericValue` from `src/ast.rs`.  The Rust struct also carries
`value: f64` (the IEEE-754 interpretation); no claim in this development
inspects that field, and IEEE floating point is not representable exactly
here, so it is omitted.  `int_value` has Rust type `Option<i64>`; it is
embedded as `Option Int`. -/
structure NumericValue where
  representation : String
  int_value : Option Int
deriving DecidableEq, Repr

/-- `ComponentValue` from `src/ast.rs`.  `Node` is
`(ComponentValue, SourceLocation)`; curly-bracket blocks hold nodes. -/
inductive ComponentValue where
  | ident (s : String)
  | atKeyword (s : String)
  | hash (s : String)
  | idHash (s : String)
  | string (s : String)
  | url (s : String)
  | delim (c : Char)
  | number (v : NumericValue)
  | percentage (v : NumericValue)
  | dimension (v : NumericValue) (unit : String)
  | unicodeRange (start stop : Nat)
  | whiteSpace
  | colon
  | semicolon
  | comma
  | includeMatch
  | dashMatch
  | prefixMatch
  | suffixMatch
  | substringMatch
  | column
  | cdo
  | cdc
  | function (name : String) (arguments : List ComponentValue)
  | parenthesisBlock (content : List ComponentValue)
  | squareBracketBlock (content : List ComponentValue)
  | curlyBracketBlock (content : List (ComponentValue × SourceLocation))
  | badUrl
  | badString
  | closeParenthesis
  | closeSquareBracket
  | closeCurlyBracket

/-- `SkipWhitespaceIterator::next` from `src/ast.rs`: the iterator state is the
remaining `iter_with_whitespace` list; `next` drops `WhiteSpace` values and
returns the first other component value together with the rest of the list. -/
def skipWsNext : List ComponentValue → Option (ComponentValue × List ComponentValue)
  | [] => none
  | cv :: rest =>
    match cv with
    | .whiteSpace => skipWsNext rest
    | _ => some (cv, rest)

/-! ## `src/nth.rs`: the `An+B` parser

Rust string operations in `nth.rs` act on bytes (`len`, `slice_from`,
`as_bytes()[0]`).  They are embedded on the character list `String.data`;
on the strings these functions inspect (ASCII prefixes `"n-"`, `"-"`,
ASCII digits, ASCII sign bytes) byte indexing and character indexing agree,
and for non-ASCII strings both the Rust code and the embedding reject. -/

/-- Character-list length of a string (Rust `str::len` on the strings
reaching `parse_n_dash_digits`, which are ASCII whenever the length test
matters, as argued above). -/
def strLen (s : String) : Nat := s.data.length

/-- Rust `str::starts_with`. -/
def strStartsWith (s p : String) : Bool := s.data.take p.data.length == p.data

/-- Rust `str::slice_from(n)` (byte slicing; character drop on the ASCII
prefixes used here). -/
def strDrop (s : String) (n : Nat) : String := String.mk (s.data.drop n)

/-- Rust `str::to_ascii_lower`: lower-case ASCII letters only. -/
def to_ascii_lower (s : String) : String :=
  String.mk (s.data.map fun c => if c.isUpper then Char.ofNat (c.toNat + 32) else c)

/-- Old-Rust `from_str::<i32>`: an optional `-` sign followed by one or
more ASCII digits; returns `none` on any other shape and on values outside
the `i32` range (overflow made `from_str` return `None`). -/
def from_str_i32 (s : String) : Option Int :=
  let (neg, digits) :=
    match s.data with
    | '-' :: rest => (true, rest)
    | l => (false, l)
  if digits.isEmpty || !(digits.all Char.isDigit) then none
  else
    let n : Nat := digits.foldl (fun a c => 10 * a + (c.toNat - 48)) 0
    let v : Int := if neg then -(n : Int) else (n : Int)
    if -2147483648 ≤ v && v ≤ 2147483647 then some v else none

/-- Rust `as i32` on an `i64` value: two's-complement truncation to 32 bits. -/
def toI32 (n : Int) : Int := (n + 2147483648) % 4294967296 - 2147483648

/-- `has_sign` from `src/nth.rs`: inspects `representation.as_bytes()[0]`;
panics (index out of bounds) when the representation is empty.  The first
byte is `+`/`-` exactly when the first character is. -/
def has_sign (value : NumericValue) : PanicOr Bool :=
  match value.representation.data with
  | [] => .panicked
  | c :: _ => .ok (c == '+' || c == '-')

/-- `parse_n_dash_digits` from `src/nth.rs`.  After the shape test
(`len >= 3`, starts with `"n-"`, rest ASCII digits) it runs
`from_str::<i32>` on the string minus the leading `n` and then
`assert!(result.is_some())` — a failed assertion is a panic. -/
def parse_n_dash_digits (string : String) : PanicOr (Option Int) :=
  if 3 ≤ strLen string
       && strStartsWith string "n-"
       && (strDrop string 2).data.all Char.isDigit then
    match from_str_i32 (strDrop string 1) with  -- include the minus sign
    | some result => .ok (some result)
    | none => .panicked  -- assert!(result.is_some()) fails
  else .ok none

/-- The result type `Nth = Result<(i32, i32), ()>` from `src/nth.rs`. -/
abbrev Nth := Except Unit (Int × Int)

/-- `parse_end` from `src/nth.rs`. -/
def parse_end (iter : List ComponentValue) (a b : Int) : PanicOr Nth :=
  match skipWsNext iter with
  | none => .ok (.ok (a, b))
  | some _ => .ok (.error ())

/-- `parse_signless_b` from `src/nth.rs`. -/
def parse_signless_b (iter : List ComponentValue) (a b_sign : Int) : PanicOr Nth :=
  match skipWsNext iter with
  | some (.number value, iter') =>
    match value.int_value with
    | some b =>
      match has_sign value with
      | .panicked => .panicked
      | .ok true => .ok (.error ())
      | .ok false => parse_end iter' a (toI32 (b_sign * toI32 b))
    | none => .ok (.error ())
  | _ => .ok (.error ())

/-- `parse_b` from `src/nth.rs`. -/
def parse_b (iter : List ComponentValue) (a : Int) : PanicOr Nth :=
  match skipWsNext iter with
  | none => .ok (.ok (a, 0))
  | some (.delim '+', iter') => parse_signless_b iter' a 1
  | some (.delim '-', iter') => parse_signless_b iter' a (-1)
  | some (.number value, iter') =>
    match value.int_value with
    | some b =>
      match has_sign value with
      | .panicked => .panicked
      | .ok true => parse_end iter' a (toI32 b)
      | .ok false => .ok (.error ())
    | none => .ok (.error ())
  | some _ => .ok (.error ())

/-- The shared tail of the `Ident` and `Delim('+')` arms of `parse_nth`
(the Rust code spells this match out twice, with `a = 1` for the plus-sign
arm; here it is factored with the leading coefficient as an argument). -/
def parse_nth_ident_tail (ident : String) (a : Int) (iter : List ComponentValue) :
    PanicOr Nth :=
  match to_ascii_lower ident with
  | "n" => parse_b iter a
  | "n-" => parse_signless_b iter a (-1)
  | lowered =>
    match parse_n_dash_digits lowered with
    | .panicked => .panicked
    | .ok (some b) => parse_end iter a b
    | .ok none => .ok (.error ())

/-- `parse_nth` from `src/nth.rs`. -/
def parse_nth (input : List ComponentValue) : PanicOr Nth :=
  match skipWsNext input with
  | some (.number value, iter) =>
    match value.int_value with
    | some b => parse_end iter 0 (toI32 b)
    | none => .ok (.error ())
  | some (.dimension value unit, iter) =>
    match value.int_value with
    | some a =>
      -- the unit is matched against "n" / "n-" / "n-<digits>"
      parse_nth_ident_tail unit (toI32 a) iter
    | none => .ok (.error ())
  | some (.ident value, iter) =>
    match to_ascii_lower value with
    | "even" => parse_end iter 2 0
    | "odd" => parse_end iter 2 1
    | "n" => parse_b iter 1
    | "-n" => parse_b iter (-1)
    | "n-" => parse_signless_b iter 1 (-1)
    | "-n-" => parse_signless_b iter (-1) (-1)
    | lowered =>
      if strStartsWith lowered "-" then
        match parse_n_dash_digits (strDrop lowered 1) with
        | .panicked => .panicked
        | .ok (some b) => parse_end iter (-1) b
        | .ok none => .ok (.error ())
      else
        match parse_n_dash_digits lowered with
        | .panicked => .panicked
        | .ok (some b) => parse_end iter 1 b
        | .ok none => .ok (.error ())
  | some (.delim '+', iter) =>
    -- `iter.iter_with_whitespace.next()`: the underlying iterator, *not*
    -- skipping whitespace — whitespace right after the sign is a syntax error.
    match iter with
    | .ident value :: iter' => parse_nth_ident_tail value 1 iter'
    | _ => .ok (.error ())
  | _ => .ok (.error ())

/-! ## The tokenizer's number production (modelled from the spec)

The tokenizer is part of the repository but not among the provided source
files; only its output type (`NumericValue` in `src/ast.rs`) is.  Claim C8
is about which `NumericValue`s the tokenizer can produce, so the number
production is modelled from spec section 4.B. -/

/-- A sign character in a numeric literal: `+` or `-`. -/
inductive Sign where
  | plus
  | minus
deriving DecidableEq, Repr

/-- Modelled from the spec: the exponent part of a numeric literal
(section 4.B): `e`/`E`, an optional sign, and its digits.  `upper` records
whether the source spelled `E` (the representation is the exact matched
text).  Digits are digit *values* (each `< 10` for a well-formed literal). -/
structure ExpPart where
  upper : Bool
  sign : Option Sign
  digits : List Nat
deriving DecidableEq, Repr

/-- Modelled from the spec: the shape of a numeric literal matched by the
tokenizer (section 4.B): optional sign, integer part, optional `.` +
fractional part, optional `e`/`E` signed exponent. -/
structure NumLit where
  sign : Option Sign
  intDigits : List Nat
  frac : Option (List Nat)
  exponent : Option ExpPart
deriving DecidableEq, Repr

/-- A numeric literal is well formed when every digit group is non-empty
as the grammar requires and all digit values are below 10. -/
def NumLit.wf (lit : NumLit) : Bool :=
  !lit.intDigits.isEmpty && lit.intDigits.all (· < 10) &&
  (match lit.frac with
   | none => true
   | some ds => !ds.isEmpty && ds.all (· < 10)) &&
  (match lit.exponent with
   | none => true
   | some e => !e.digits.isEmpty && e.digits.all (· < 10))

/-- The character of a digit value. -/
def digitChar (d : Nat) : Char := Char.ofNat (48 + d)

/-- The characters of an optional sign. -/
def signChars : Option Sign → List Char
  | none => []
  | some .plus => ['+']
  | some .minus => ['-']

/-- The value of a digit run. -/
def digitsVal (ds : List Nat) : Nat := ds.foldl (fun a d => 10 * a + d) 0

/-- Modelled from the spec: the exact matched text of a numeric literal
("`representation` is exactly the matched text", section 4.B). -/
def renderChars (lit : NumLit) : List Char :=
  signChars lit.sign ++ lit.intDigits.map digitChar ++
  (match lit.frac with
   | none => []
   | some ds => '.' :: ds.map digitChar) ++
  (match lit.exponent with
   | none => []
   | some e => (if e.upper then 'E' else 'e') :: (signChars e.sign ++ e.digits.map digitChar))

/-- The representation string of a numeric literal. -/
def NumLit.representation (lit : NumLit) : String := String.mk (renderChars lit)

/-- The signed integer value of the literal's integer part. -/
def NumLit.intValueInt (lit : NumLit) : Int :=
  match lit.sign with
  | some .minus => -(digitsVal lit.intDigits : Int)
  | _ => (digitsVal lit.intDigits : Int)

/-- Modelled from the spec: the `NumericValue` the tokenizer produces for a
matched numeric literal (section 4.B: "`representation` is exactly the
matched text. `int_value` is Some iff no `.`/`e`", restated in section 8 as
"`n.int_value` is Some iff `representation` matches the integer
subgrammar").  The `f64` `value` field is omitted as explained at
`NumericValue`. -/
def consume_numeric (lit : NumLit) : NumericValue :=
  { representation := lit.representation
    int_value :=
      if lit.frac.isNone && lit.exponent.isNone then some lit.intValueInt else none }

/-- The property claimed of a representation string: no fractional part and
no exponent part, i.e. none of the characters `.`, `e`, `E` occur. -/
def noFracOrExpChars (s : String) : Bool :=
  s.data.all fun c => !(c == '.') && !(c == 'e') && !(c == 'E')

/-- The int32 range. -/
@[reducible]
def fitsInt32 (n : Int) : Prop := -2147483648 ≤ n ∧ n ≤ 2147483647

/-- The literal `2147483648`: an integer by the spec grammar, but one past
the int32 range. -/
def numLitIntMaxPlusOne : NumLit :=
  { sign := none, intDigits := [2, 1, 4, 7, 4, 8, 3, 6, 4, 8], frac := none, exponent := none }

/-- The literal `12`, used as a witness input. -/
def numLitTwelve : NumLit :=
  { sign := none, intDigits := [1, 2], frac := none, exponent := none }

/-! ## The delimited parser (modelled from the spec)

`src/src/rules_and_declarations.rs` is written against
`super::{Token, Parser, Delimiter, SourcePosition}`.  Those definitions are
part of the repository but not among the provided source files, so they are
modelled from spec sections 3 (token data model), 4.C (block tree: a block
token carries its children, so a block is one element of the token list)
and 4.D (delimited parser).  A `SourcePosition` is the index of the next
token at the current nesting level. -/

/-- Modelled from the spec: the token (component value) data model of
section 3, used by the rule/declaration engine.  Block tokens carry their
children (section 4.C folds balanced blocks into nested component values).
`whiteSpace` and `comment` carry their text, matching the
`Token::WhiteSpace(_)` / `Token::Comment(_)` patterns in
`rules_and_declarations.rs`. -/
inductive Token where
  | ident (s : String)
  | atKeyword (s : String)
  | hash (s : String)
  | idHash (s : String)
  | quotedString (s : String)
  | url (s : String)
  | badString
  | badUrl
  | delim (c : Char)
  | number (v : NumericValue)
  | percentage (v : NumericValue)
  | dimension (v : NumericValue) (unit : String)
  | unicodeRange (start stop : Nat)
  | whiteSpace (s : String)
  | comment (s : String)
  | colon
  | semicolon
  | comma
  | includeMatch
  | dashMatch
  | prefixMatch
  | suffixMatch
  | substringMatch
  | column
  | cdo
  | cdc
  | function (name : String) (children : List Token)
  | parenthesisBlock (children : List Token)
  | squareBracketBlock (children : List Token)
  | curlyBracketBlock (children : List Token)
  | closeParenthesis
  | closeSquareBracket
  | closeCurlyBracket

/-- Modelled from the spec: the delimiter bitset of section 4.D, "a subset
of `{Semicolon, Bang, Comma, CurlyBracketBlock}`". -/
structure Delimiters where
  semicolon : Bool
  bang : Bool
  comma : Bool
  curlyBracketBlock : Bool
deriving DecidableEq, Repr

/-- The empty delimiter set. -/
def Delimiters.emptySet : Delimiters := ⟨false, false, false, false⟩

/-- Bitset union of two delimiter sets (Rust `|`). -/
def Delimiters.union (a b : Delimiters) : Delimiters :=
  ⟨a.semicolon || b.semicolon, a.bang || b.bang, a.comma || b.comma,
   a.curlyBracketBlock || b.curlyBracketBlock⟩

/-- `Delimiter::Semicolon`. -/
def Delimiter.Semicolon : Delimiters := ⟨true, false, false, false⟩

/-- `Delimiter::Bang` (stops at `Delim('!')`). -/
def Delimiter.Bang : Delimiters := ⟨false, true, false, false⟩

/-- `Delimiter::Comma`. -/
def Delimiter.Comma : Delimiters := ⟨false, false, true, false⟩

/-- `Delimiter::CurlyBracketBlock`. -/
def Delimiter.CurlyBracketBlock : Delimiters := ⟨false, false, false, true⟩

/-- Whether a token is one of the active delimiters of a set. -/
def Delimiters.stopsAt (d : Delimiters) : Token → Bool
  | .semicolon => d.semicolon
  | .delim c => d.bang && c == '!'
  | .comma => d.comma
  | .curlyBracketBlock _ => d.curlyBracketBlock
  | _ => false

/-- Whether a token is skipped by `Parser::next` (whitespace or comment). -/
def Token.isWsOrComment : Token → Bool
  | .whiteSpace _ => true
  | .comment _ => true
  | _ => false

/-- Modelled from the spec: the delimited parser of section 4.D wraps the
token stream of the current nesting level, the index of the next token
(the `SourcePosition`), and the active delimiter set. -/
structure Parser where
  tokens : List Token
  pos : Nat
  stop : Delimiters

/-- Number of leading tokens of a list that `Parser::next` skips
(whitespace and comments). -/
def wsCommentCount : List Token → Nat
  | [] => 0
  | t :: rest => if t.isWsOrComment then wsCommentCount rest + 1 else 0

/-- Number of leading tokens of a list before the first active delimiter
(the whole list when no delimiter occurs). -/
def scanCount (stop : Delimiters) : List Token → Nat
  | [] => 0
  | t :: rest => if stop.stopsAt t then 0 else scanCount stop rest + 1

/-- Index of the first active delimiter in a list, if any.  This is the
specification-side characterisation of where `parse_until_before` leaves
the outer parser; `scanCount` is the computation the parser performs. -/
def firstStopIdx (stop : Delimiters) : List Token → Option Nat
  | [] => none
  | t :: rest => if stop.stopsAt t then some 0 else (firstStopIdx stop rest).map (· + 1)

/-- Modelled from the spec: `next_including_whitespace_and_comments`
(section 4.D): return the next token "only if it lies before any active
delimiter; otherwise return end.  When at end, the parser does not consume
the delimiter itself." -/
def Parser.next_including_whitespace_and_comments (p : Parser) : Option Token × Parser :=
  match (p.tokens.drop p.pos).head? with
  | none => (none, p)
  | some t =>
    if p.stop.stopsAt t then (none, p)
    else (some t, { p with pos := p.pos + 1 })

/-- Advance past whitespace and comments. -/
def Parser.skipWs (p : Parser) : Parser :=
  { p with pos := p.pos + wsCommentCount (p.tokens.drop p.pos) }

/-- Modelled from the spec: `next` (section 4.D): advance past
whitespace/comments, then behave like
`next_including_whitespace_and_comments`. -/
def Parser.next (p : Parser) : Option Token × Parser :=
  p.skipWs.next_including_whitespace_and_comments

/-- Modelled from the spec: `expect_colon` (section 4.D `expect_*`):
token-shape assertion; failure leaves the position unchanged. -/
def Parser.expect_colon (p : Parser) : Except Unit Unit × Parser :=
  match p.next with
  | (some .colon, p') => (.ok (), p')
  | _ => (.error (), p)

/-- Modelled from the spec: `parse_until_before(delims, f)` (section 4.D):
"run `f` with the active delimiter set unioned with `delims`; afterwards,
advance the outer cursor up to (not past) the first such delimiter,
regardless of whether `f` succeeded."  The closure receives the delimited
view; per the resynchronization invariant of section 4.D the outer
parser's position afterwards does not depend on the closure's outcome, so
it is computed by the delimiter scan from the start of the window. -/
def Parser.parse_until_before {α : Type} (p : Parser) (delimiters : Delimiters)
    (parse : Parser → Except Unit α × Parser) : Except Unit α × Parser :=
  let delimiters := p.stop.union delimiters
  let result := (parse { p with stop := delimiters }).1
  (result, { p with pos := p.pos + scanCount delimiters (p.tokens.drop p.pos) })

/-- Modelled from the spec: `parse_until_after(delims, f)` (section 4.D):
"same but also consume the delimiter token".  A delimiter belonging to the
outer parser's own set is not consumed (it ends the outer scope). -/
def Parser.parse_until_after {α : Type} (p : Parser) (delimiters : Delimiters)
    (parse : Parser → Except Unit α × Parser) : Except Unit α × Parser :=
  let result := (p.parse_until_before delimiters parse).1
  let p' := (p.parse_until_before delimiters parse).2
  match (p'.tokens.drop p'.pos).head? with
  | none => (result, p')
  | some t =>
    if p'.stop.stopsAt t then (result, p')
    else (result, { p' with pos := p'.pos + 1 })

/-- Modelled from the spec: `parse_nested_block(f)` (section 4.D): only
valid when the most recently produced token was a block opener (the caller
passes that block's children); runs `f` over the interior with an empty
delimiter set, and leaves the outer cursor just after the block — which,
in the block-tree model, is where it already is after `next` produced the
block token. -/
def Parser.parse_nested_block {α : Type} (p : Parser) (children : List Token)
    (parse : Parser → Except Unit α × Parser) : Except Unit α × Parser :=
  ((parse { tokens := children, pos := 0, stop := Delimiters.emptySet }).1, p)

/-! ## `src/src/rules_and_declarations.rs`: the rule & declaration engine

The user-supplied trait implementations are records of closures.  In Rust a
single value implements both traits a driver needs; here the driver takes
the two records separately. -/

/-- The return value for `AtRuleParser::parse_prelude`
(`AtRuleType` in `src/src/rules_and_declarations.rs`). -/
inductive AtRuleType (P R : Type) where
  | WithoutBlock (rule : R)
  | WithBlock (prelude : P)
  | OptionalBlock (prelude : P)

/-- A `DeclarationParser` implementation: `parse_value(name, input)`. -/
structure DeclarationParserImpl (D : Type) where
  parse_value : String → Parser → Except Unit D × Parser

/-- An `AtRuleParser` implementation.  `rule_without_block` must be
overridden by any implementation whose `parse_prelude` returns
`OptionalBlock` (the Rust default panics), so it is a total function
here. -/
structure AtRuleParserImpl (P R : Type) where
  parse_prelude : String → Parser → Except Unit (AtRuleType P R) × Parser
  parse_block : P → Parser → Except Unit R × Parser
  rule_without_block : P → R

/-- A `QualifiedRuleParser` implementation. -/
structure QualifiedRuleParserImpl (P R : Type) where
  parse_prelude : Parser → Except Unit P × Parser
  parse_block : P → Parser → Except Unit R × Parser

/-- `parse_at_rule` from `src/src/rules_and_declarations.rs`.  The
`unreachable!()` arms are a panic outcome. -/
def parse_at_rule {P R : Type} (start_position : Nat) (name : String) (input : Parser)
    (parser : AtRuleParserImpl P R) : PanicOr (Except (Nat × Nat) R × Parser) :=
  let delimiters := Delimiter.Semicolon.union Delimiter.CurlyBracketBlock
  let result :=
    (input.parse_until_before delimiters (fun input => parser.parse_prelude name input)).1
  let input :=
    (input.parse_until_before delimiters (fun input => parser.parse_prelude name input)).2
  match result with
  | .ok (.WithoutBlock rule) =>
    match input.next with
    | (some .semicolon, input) => .ok (.ok rule, input)
    | (none, input) => .ok (.ok rule, input)
    | (some (.curlyBracketBlock _), input) => .ok (.error (start_position, input.pos), input)
    | (some _, _) => .panicked  -- unreachable!()
  | .ok (.WithBlock prelude) =>
    match input.next with
    | (some (.curlyBracketBlock children), input) =>
      match (input.parse_nested_block children (fun input => parser.parse_block prelude input)).1,
            (input.parse_nested_block children (fun input => parser.parse_block prelude input)).2 with
      | .ok rule, input => .ok (.ok rule, input)
      | .error (), input => .ok (.error (start_position, input.pos), input)
    | (some .semicolon, input) => .ok (.error (start_position, input.pos), input)
    | (none, input) => .ok (.error (start_position, input.pos), input)
    | (some _, _) => .panicked  -- unreachable!()
  | .ok (.OptionalBlock prelude) =>
    match input.next with
    | (some .semicolon, input) => .ok (.ok (parser.rule_without_block prelude), input)
    | (none, input) => .ok (.ok (parser.rule_without_block prelude), input)
    | (some (.curlyBracketBlock children), input) =>
      match (input.parse_nested_block children (fun input => parser.parse_block prelude input)).1,
            (input.parse_nested_block children (fun input => parser.parse_block prelude input)).2 with
      | .ok rule, input => .ok (.ok rule, input)
      | .error (), input => .ok (.error (start_position, input.pos), input)
    | (some _, _) => .panicked  -- unreachable!()
  | .error () =>
    let end_position := input.pos
    match input.next with
    | (some (.curlyBracketBlock _), input) => .ok (.error (start_position, end_position), input)
    | (some .semicolon, input) => .ok (.error (start_position, end_position), input)
    | (none, input) => .ok (.error (start_position, end_position), input)
    | (some _, _) => .panicked  -- unreachable!()

/-- `parse_qualified_rule` from `src/src/rules_and_declarations.rs`.  The
`{` block is consumed (by `next`) even when the prelude is `Err`. -/
def parse_qualified_rule {P R : Type} (input : Parser)
    (parser : QualifiedRuleParserImpl P R) : Except Unit R × Parser :=
  let prelude := (input.parse_until_before Delimiter.CurlyBracketBlock
      (fun input => parser.parse_prelude input)).1
  let input := (input.parse_until_before Delimiter.CurlyBracketBlock
      (fun input => parser.parse_prelude input)).2
  match input.next with
  | (some (.curlyBracketBlock children), input) =>
    match prelude with
    | .ok prelude => input.parse_nested_block children (fun input => parser.parse_block prelude input)
    | .error () => (.error (), input)
  | (_, input) => (.error (), input)

/-- The closure the declaration-list driver passes to
`parse_until_after(Semicolon, ...)`: `try!(input.expect_colon());
parser.parse_value(&*name, input)`. -/
def declValueClosure {D : Type} (declParser : DeclarationParserImpl D) (name : String)
    (input : Parser) : Except Unit D × Parser :=
  match input.expect_colon with
  | (.ok (), input) => declParser.parse_value name input
  | (.error (), input) => (.error (), input)

/-- `DeclarationListParser` from `src/src/rules_and_declarations.rs`: the
input parser plus the user parser (one Rust value implementing both
`DeclarationParser` and `AtRuleParser`; two records here). -/
structure DeclarationListParser (Q D : Type) where
  input : Parser
  declParser : DeclarationParserImpl D
  atParser : AtRuleParserImpl Q D

/-- Number of leading tokens the declaration-list loop skips: whitespace,
comments and stray semicolons (stopping at any active delimiter, which
`next_including_whitespace_and_comments` would refuse to return). -/
def declSkip (stop : Delimiters) : List Token → Nat
  | [] => 0
  | t :: rest =>
    if stop.stopsAt t then 0
    else
      match t with
      | .whiteSpace _ => declSkip stop rest + 1
      | .comment _ => declSkip stop rest + 1
      | .semicolon => declSkip stop rest + 1
      | _ => 0

/-- `<DeclarationListParser as Iterator>::next`.  The Rust `loop` keeps
consuming `WhiteSpace`/`Comment`/`Semicolon` tokens and then dispatches on
the first other token; the loop is embedded as the `declSkip` scan followed
by one dispatch.  `start_position` is the position taken at the top of the
dispatching iteration. -/
def DeclarationListParser.next {Q D : Type} (s : DeclarationListParser Q D) :
    PanicOr (Option (Except (Nat × Nat) D) × DeclarationListParser Q D) :=
  let input := s.input
  let start_position := input.pos + declSkip input.stop (input.tokens.drop input.pos)
  let input : Parser := { input with pos := start_position }
  match input.next_including_whitespace_and_comments with
  | (some (.ident name), input) =>
    match (input.parse_until_after Delimiter.Semicolon (declValueClosure s.declParser name)).1,
          (input.parse_until_after Delimiter.Semicolon (declValueClosure s.declParser name)).2 with
    | .ok d, input => .ok (some (.ok d), { s with input := input })
    | .error (), input =>
      .ok (some (.error (start_position, input.pos)), { s with input := input })
  | (some (.atKeyword name), input) =>
    match parse_at_rule start_position name input s.atParser with
    | .panicked => .panicked
    | .ok (r, input) => .ok (some r, { s with input := input })
  | (some _, input) =>
    match (input.parse_until_after Delimiter.Semicolon
             (fun (input : Parser) => ((.error () : Except Unit D), input))).1,
          (input.parse_until_after Delimiter.Semicolon
             (fun (input : Parser) => ((.error () : Except Unit D), input))).2 with
    | .ok d, input => .ok (some (.ok d), { s with input := input })
    | .error (), input =>
      .ok (some (.error (start_position, input.pos)), { s with input := input })
  | (none, input) => .ok (none, { s with input := input })

/-- `RuleListParser` from `src/src/rules_and_declarations.rs`. -/
structure RuleListParser (QP AP R : Type) where
  input : Parser
  qualParser : QualifiedRuleParserImpl QP R
  atParser : AtRuleParserImpl AP R
  is_stylesheet : Bool

/-- Number of leading tokens the rule-list loop skips: whitespace and
comments, plus top-level `CDO`/`CDC` when parsing a stylesheet. -/
def ruleSkip (is_stylesheet : Bool) (stop : Delimiters) : List Token → Nat
  | [] => 0
  | t :: rest =>
    if stop.stopsAt t then 0
    else
      match t with
      | .whiteSpace _ => ruleSkip is_stylesheet stop rest + 1
      | .comment _ => ruleSkip is_stylesheet stop rest + 1
      | .cdo => if is_stylesheet then ruleSkip is_stylesheet stop rest + 1 else 0
      | .cdc => if is_stylesheet then ruleSkip is_stylesheet stop rest + 1 else 0
      | _ => 0

/-- `<RuleListParser as Iterator>::next`, embedded like
`DeclarationListParser.next`.  On a token that is neither an at-keyword nor
skippable the driver resets to `start_position` and runs the
qualified-rule pipeline. -/
def RuleListParser.next {QP AP R : Type} (s : RuleListParser QP AP R) :
    PanicOr (Option (Except (Nat × Nat) R) × RuleListParser QP AP R) :=
  let input := s.input
  let start_position := input.pos + ruleSkip s.is_stylesheet input.stop (input.tokens.drop input.pos)
  let input : Parser := { input with pos := start_position }
  match input.next_including_whitespace_and_comments with
  | (some (.atKeyword name), input) =>
    match parse_at_rule start_position name input s.atParser with
    | .panicked => .panicked
    | .ok (r, input) => .ok (some r, { s with input := input })
  | (some _, input) =>
    -- self.input.reset(start_position)
    let input : Parser := { input with pos := start_position }
    match (parse_qualified_rule input s.qualParser).1,
          (parse_qualified_rule input s.qualParser).2 with
    | .ok rule, input => .ok (some (.ok rule), { s with input := input })
    | .error (), input =>
      .ok (some (.error (start_position, input.pos)), { s with input := input })
  | (none, input) => .ok (none, { s with input := input })

/-- Collect the items of a declaration list, fuel-indexed.  One unit of
fuel is spent per yielded item; `DeclarationListParser.items` supplies
enough fuel for any input (each yield consumes at least one token, which
the iteration theorems prove). -/
def declItemsAux {Q D : Type} : Nat → DeclarationListParser Q D →
    PanicOr (List (Except (Nat × Nat) D))
  | 0, _ => .ok []
  | fuel + 1, s =>
    match s.next with
    | .panicked => .panicked
    | .ok (none, _) => .ok []
    | .ok (some item, s') =>
      match declItemsAux fuel s' with
      | .panicked => .panicked
      | .ok rest => .ok (item :: rest)

/-- All items yielded by iterating `DeclarationListParser::next`. -/
def DeclarationListParser.items {Q D : Type} (s : DeclarationListParser Q D) :
    PanicOr (List (Except (Nat × Nat) D)) :=
  declItemsAux (s.input.tokens.length + 1 - s.input.pos) s

/-- Collect the items of a rule list, fuel-indexed. -/
def ruleItemsAux {QP AP R : Type} : Nat → RuleListParser QP AP R →
    PanicOr (List (Except (Nat × Nat) R))
  | 0, _ => .ok []
  | fuel + 1, s =>
    match s.next with
    | .panicked => .panicked
    | .ok (none, _) => .ok []
    | .ok (some item, s') =>
      match ruleItemsAux fuel s' with
      | .panicked => .panicked
      | .ok rest => .ok (item :: rest)

/-- All items yielded by iterating `RuleListParser::next`. -/
def RuleListParser.items {QP AP R : Type} (s : RuleListParser QP AP R) :
    PanicOr (List (Except (Nat × Nat) R)) :=
  ruleItemsAux (s.input.tokens.length + 1 - s.input.pos) s

/-! ## Concrete fixtures for the declaration-list scenario -/

/-- A declaration value parser for tests: collect every remaining token of
the delimited value (whitespace skipped by `next`), fuel-indexed. -/
def collectTokensAux : Nat → Parser → List Token
  | 0, _ => []
  | fuel + 1, input =>
    match input.next with
    | (some t, input') => t :: collectTokensAux fuel input'
    | (none, _) => []

/-- A `DeclarationParser` returning the declaration name and its value
tokens. -/
def testDeclParser : DeclarationParserImpl (String × List Token) :=
  { parse_value := fun name input =>
      (.ok (name, collectTokensAux (input.tokens.length + 1 - input.pos) input), input) }

/-- An `AtRuleParser` that rejects every at-rule (the default `impl`). -/
def testAtParser : AtRuleParserImpl Unit (String × List Token) :=
  { parse_prelude := fun _ input => (.error (), input)
    parse_block := fun _ input => (.error (), input)
    rule_without_block := fun _ => ("", []) }

/-- The token stream of `"color: red; bogus; width: 1px"`. -/
def colorRedTokens : List Token :=
  [Token.ident "color", Token.colon, Token.whiteSpace " ", Token.ident "red",
   Token.semicolon, Token.whiteSpace " ", Token.ident "bogus", Token.semicolon,
   Token.whiteSpace " ", Token.ident "width", Token.colon, Token.whiteSpace " ",
   Token.dimension ⟨"1", some 1⟩ "px"]

/-- A declaration-list parser over `colorRedTokens`. -/
def colorRedDeclList : DeclarationListParser Unit (String × List Token) :=
  { input := { tokens := colorRedTokens, pos := 0, stop := Delimiters.emptySet }
    declParser := testDeclParser
    atParser := testAtParser }

/-! ## Concrete fixtures for at-rule / qualified-rule witnesses -/

/-- An `AtRuleParser` whose prelude outcome is selected by the at-rule
name, used to instantiate the at-rule pipeline theorems. -/
def witAtParser : AtRuleParserImpl Unit Nat :=
  { parse_prelude := fun name input =>
      (if name == "wb" then .ok (.WithoutBlock 1)
       else if name == "ob" then .ok (.OptionalBlock ())
       else if name == "bad" then .error ()
       else .ok (.WithBlock ()), input)
    parse_block := fun _ input => (.ok 2, input)
    rule_without_block := fun _ => 3 }

/-- A `QualifiedRuleParser` rejecting every prelude, used to instantiate
the qualified-rule theorem. -/
def witQualParser : QualifiedRuleParserImpl Unit Nat :=
  { parse_prelude := fun input => (.error (), input)
    parse_block := fun _ input => (.ok 5, input) }

/-- `a {}` as a token stream. -/
def witQualTokens : List Token := [Token.ident "a", Token.curlyBracketBlock []]

/-- A parser over `witQualTokens`. -/
def witQualInput : Parser := { tokens := witQualTokens, pos := 0, stop := Delimiters.emptySet }

/-- A parser over a lone semicolon (the remainder of an at-rule whose
at-keyword was already consumed). -/
def witSemiInput : Parser := { tokens := [Token.semicolon], pos := 0, stop := Delimiters.emptySet }

/-- A parser over a lone empty curly-bracket block. -/
def witCurlyInput : Parser :=
  { tokens := [Token.curlyBracketBlock []], pos := 0, stop := Delimiters.emptySet }

/-- A rule-list parser over `colorRedTokens` (treated as a stylesheet),
used to instantiate the iteration theorems at a concrete input. -/
def witRuleList : RuleListParser Unit Unit Nat :=
  { input := { tokens := colorRedTokens, pos := 0, stop := Delimiters.emptySet }
    qualParser := witQualParser
    atParser := witAtParser
    is_stylesheet := true }

/-! # Theorems

Basic lemmas about the delimiter scan and the parser stepping operations,
followed by one theorem per claim. -/

theorem scanCount_le (stop : Delimiters) (l : List Token) : scanCount stop l ≤ l.length := by
  induction l with
  | nil => simp [scanCount]
  | cons t rest ih =>
    simp only [scanCount, List.length_cons]
    split
    · omega
    · omega

theorem scanCount_head (stop : Delimiters) (l : List Token) {t : Token}
    (h : (l.drop (scanCount stop l)).head? = some t) : stop.stopsAt t = true := by
  induction l with
  | nil => simp [scanCount] at h
  | cons u rest ih =>
    by_cases hu : stop.stopsAt u
    · simp [scanCount, hu] at h
      exact h ▸ hu
    · simp only [scanCount, hu, if_false, List.drop_succ_cons] at h
      exact ih h

theorem firstStopIdx_scanCount {stop : Delimiters} {l : List Token} {i : Nat}
    (h : firstStopIdx stop l = some i) : scanCount stop l = i := by
  induction l generalizing i with
  | nil => simp [firstStopIdx] at h
  | cons u rest ih =>
    by_cases hu : stop.stopsAt u
    · simp [firstStopIdx, hu] at h
      simp [scanCount, hu, h]
    · simp only [firstStopIdx, hu, if_false] at h
      obtain ⟨j, hj, hji⟩ := Option.map_eq_some'.mp h
      simp [scanCount, hu, ih hj, ← hji]

theorem firstStopIdx_none_scanCount {stop : Delimiters} {l : List Token}
    (h : firstStopIdx stop l = none) : scanCount stop l = l.length := by
  induction l with
  | nil => simp [scanCount]
  | cons u rest ih =>
    by_cases hu : stop.stopsAt u
    · simp [firstStopIdx, hu] at h
    · simp [firstStopIdx, hu, Option.map_eq_none'] at h
      simp [scanCount, hu, ih h]

theorem firstStopIdx_head {stop : Delimiters} {l : List Token} {i : Nat}
    (h : firstStopIdx stop l = some i) :
    ∃ t, (l.drop i).head? = some t ∧ stop.stopsAt t = true := by
  induction l generalizing i with
  | nil => simp [firstStopIdx] at h
  | cons u rest ih =>
    by_cases hu : stop.stopsAt u
    · simp [firstStopIdx, hu] at h
      exact ⟨u, by simp [← h], hu⟩
    · simp only [firstStopIdx, hu, if_false] at h
      obtain ⟨j, hj, hji⟩ := Option.map_eq_some'.mp h
      obtain ⟨t, ht, hts⟩ := ih hj
      exact ⟨t, by simpa [← hji] using ht, hts⟩

theorem stopsAt_union (a b : Delimiters) (t : Token) :
    (a.union b).stopsAt t = (a.stopsAt t || b.stopsAt t) := by
  cases t <;>
    simp only [Delimiters.union, Delimiters.stopsAt, Bool.or_false] <;>
    try rfl
  case delim c => cases c == '!' <;> cases a.bang <;> cases b.bang <;> rfl

theorem stopsAt_empty (t : Token) : Delimiters.emptySet.stopsAt t = false := by
  cases t <;> rfl

theorem empty_union (d : Delimiters) : Delimiters.emptySet.union d = d := rfl

theorem stopsAt_not_wsOrComment {d : Delimiters} {t : Token} (h : d.stopsAt t = true) :
    t.isWsOrComment = false := by
  cases t <;> simp_all [Delimiters.stopsAt, Token.isWsOrComment]

theorem semi_curly_inversion {t : Token}
    (h : (Delimiter.Semicolon.union Delimiter.CurlyBracketBlock).stopsAt t = true) :
    t = .semicolon ∨ ∃ cs, t = .curlyBracketBlock cs := by
  cases t <;>
    simp_all [Delimiters.stopsAt, Delimiter.Semicolon, Delimiter.CurlyBracketBlock,
      Delimiters.union]

theorem semi_inversion {t : Token} (h : Delimiter.Semicolon.stopsAt t = true) :
    t = .semicolon := by
  cases t <;> simp_all [Delimiters.stopsAt, Delimiter.Semicolon]

theorem curly_inversion {t : Token} (h : Delimiter.CurlyBracketBlock.stopsAt t = true) :
    ∃ cs, t = .curlyBracketBlock cs := by
  cases t <;> simp_all [Delimiters.stopsAt, Delimiter.CurlyBracketBlock]

theorem wsCommentCount_le (l : List Token) : wsCommentCount l ≤ l.length := by
  induction l with
  | nil => simp [wsCommentCount]
  | cons t rest ih =>
    simp only [wsCommentCount, List.length_cons]
    split
    · omega
    · omega

theorem wsCommentCount_cons_not_ws {t : Token} (rest : List Token)
    (h : t.isWsOrComment = false) : wsCommentCount (t :: rest) = 0 := by
  simp [wsCommentCount, h]

theorem head_drop_lt {l : List Token} {n : Nat} {t : Token}
    (h : (l.drop n).head? = some t) : n < l.length := by
  by_contra hn
  push_neg at hn
  rw [List.drop_eq_nil_of_le hn] at h
  simp at h

theorem Parser.next_eq_none_of_head_none (q : Parser)
    (hh : (q.tokens.drop q.pos).head? = none) : q.next = (none, q) := by
  have hnil : q.tokens.drop q.pos = [] := by
    cases hc : q.tokens.drop q.pos with
    | nil => rfl
    | cons a l => rw [hc] at hh; simp at hh
  unfold Parser.next Parser.skipWs Parser.next_including_whitespace_and_comments
  simp [hnil, wsCommentCount]

theorem Parser.next_eq_none_of_head_stop {q : Parser} {t : Token}
    (hh : (q.tokens.drop q.pos).head? = some t) (hw : t.isWsOrComment = false)
    (hs : q.stop.stopsAt t = true) : q.next = (none, q) := by
  obtain ⟨rest, hrest⟩ : ∃ rest, q.tokens.drop q.pos = t :: rest := by
    cases hc : q.tokens.drop q.pos with
    | nil => rw [hc] at hh; simp at hh
    | cons a l => rw [hc] at hh; simp at hh; exact ⟨l, by rw [hh]⟩
  unfold Parser.next Parser.skipWs Parser.next_including_whitespace_and_comments
  simp [hrest, wsCommentCount_cons_not_ws _ hw, hh, hs]

theorem Parser.next_eq_some_of_head_tok {q : Parser} {t : Token}
    (hh : (q.tokens.drop q.pos).head? = some t) (hw : t.isWsOrComment = false)
    (hs : q.stop.stopsAt t = false) :
    q.next = (some t, { q with pos := q.pos + 1 }) := by
  obtain ⟨rest, hrest⟩ : ∃ rest, q.tokens.drop q.pos = t :: rest := by
    cases hc : q.tokens.drop q.pos with
    | nil => rw [hc] at hh; simp at hh
    | cons a l => rw [hc] at hh; simp at hh; exact ⟨l, by rw [hh]⟩
  unfold Parser.next Parser.skipWs Parser.next_including_whitespace_and_comments
  simp [hrest, wsCommentCount_cons_not_ws _ hw, hh, hs]

theorem parse_until_before_snd {α : Type} (p : Parser) (d : Delimiters)
    (f : Parser → Except Unit α × Parser) :
    (p.parse_until_before d f).2 =
      { p with pos := p.pos + scanCount (p.stop.union d) (p.tokens.drop p.pos) } := rfl

theorem parse_until_before_fst {α : Type} (p : Parser) (d : Delimiters)
    (f : Parser → Except Unit α × Parser) :
    (p.parse_until_before d f).1 = (f { p with stop := p.stop.union d }).1 := rfl

theorem parse_nested_block_snd {α : Type} (p : Parser) (children : List Token)
    (f : Parser → Except Unit α × Parser) :
    (p.parse_nested_block children f).2 = p := rfl

/-- After the delimiter scan, the tail of the token list at the outer
cursor starts with an active delimiter of the scan, if it is non-empty. -/
theorem parse_until_before_head {α : Type} (p : Parser) (d : Delimiters)
    (f : Parser → Except Unit α × Parser) {t : Token}
    (h : ((p.parse_until_before d f).2.tokens.drop (p.parse_until_before d f).2.pos).head?
          = some t) :
    (p.stop.union d).stopsAt t = true := by
  rw [parse_until_before_snd] at h
  simp only at h
  rw [← List.drop_drop] at h
  exact scanCount_head _ _ h

/-- The result of `parse_until_after` is the closure's result. -/
theorem parse_until_after_fst {α : Type} (p : Parser) (d : Delimiters)
    (f : Parser → Except Unit α × Parser) :
    (p.parse_until_after d f).1 = (p.parse_until_before d f).1 := by
  unfold Parser.parse_until_after
  cases hx : ((p.parse_until_before d f).2.tokens.drop (p.parse_until_before d f).2.pos).head? with
  | none => simp [hx]
  | some t => simp only [hx]; split <;> rfl

/-- The outer parser after `parse_until_after`: the outer parser after
`parse_until_before`, with the stopping delimiter consumed when there is
one and it does not belong to the ambient set. -/
theorem parse_until_after_snd {α : Type} (p : Parser) (d : Delimiters)
    (f : Parser → Except Unit α × Parser) :
    (p.parse_until_after d f).2 =
      (let p' := (p.parse_until_before d f).2
       match (p'.tokens.drop p'.pos).head? with
       | none => p'
       | some t => if p'.stop.stopsAt t then p' else { p' with pos := p'.pos + 1 }) := by
  unfold Parser.parse_until_after
  cases hx : ((p.parse_until_before d f).2.tokens.drop (p.parse_until_before d f).2.pos).head? with
  | none => simp [hx]
  | some t => simp only [hx]; split <;> rfl

/-- Claim C1: for every delimiter set `d` and closures `f` and `g`, the
outer parser's position after `parse_until_before`, `parse_until_after`
and `parse_nested_block` is the same whether the closure run was `f` or
`g` — independent of the closure's success and of how much of the
delimited window it consumed — and after `parse_until_before(d, f)` the
outer parser's next non-whitespace token is either a member of `d` or
end-of-input (`next` returns `none`; in particular a delimiter of the
enclosing scope also reads as end for the outer parser). -/
theorem resynchronization_invariant {α β : Type}
    (d : Delimiters) (input : Parser) (children : List Token)
    (f : Parser → Except Unit α × Parser) (g : Parser → Except Unit β × Parser) :
    ((input.parse_until_before d f).2.pos = (input.parse_until_before d g).2.pos) ∧
    ((input.parse_until_after d f).2.pos = (input.parse_until_after d g).2.pos) ∧
    ((input.parse_nested_block children f).2.pos
      = (input.parse_nested_block children g).2.pos) ∧
    (match ((input.parse_until_before d f).2.next).1 with
     | none => True
     | some t => d.stopsAt t = true) := by
  refine ⟨rfl, ?_, rfl, ?_⟩
  · rw [parse_until_after_snd, parse_until_after_snd, parse_until_before_snd,
      parse_until_before_snd]
  · cases hx : (((input.parse_until_before d f).2.tokens.drop
        (input.parse_until_before d f).2.pos).head?) with
    | none =>
      rw [Parser.next_eq_none_of_head_none _ hx]
      trivial
    | some t =>
      have hu : (input.stop.union d).stopsAt t = true := parse_until_before_head input d f hx
      have hw := stopsAt_not_wsOrComment hu
      have hstop' : (input.parse_until_before d f).2.stop = input.stop := by
        rw [parse_until_before_snd]
      by_cases hs : input.stop.stopsAt t = true
      · rw [Parser.next_eq_none_of_head_stop hx hw (by rw [hstop']; exact hs)]
        trivial
      · rw [Parser.next_eq_some_of_head_tok hx hw
          (by rw [hstop']; exact Bool.not_eq_true _ ▸ hs)]
        rw [stopsAt_union] at hu
        have := Bool.or_eq_true_iff.mp hu
        rcases this with h1 | h2
        · exact absurd h1 hs
        · exact h2

/-- Claim C7: `parse_nth` on the token sequences of `"2n+1"`, `"even"`
and `"-n-3"` returns `Ok((2,1))`, `Ok((2,0))` and `Ok((-1,-3))`, and on
the token sequence of `"+ n"` (a `+` delimiter separated from the ident by
whitespace) returns an error, because the whitespace after the sign makes
the underlying-iterator lookahead see `WhiteSpace` instead of an ident. -/
theorem parse_nth_examples :
    parse_nth [ComponentValue.dimension ⟨"2", some 2⟩ "n",
               ComponentValue.number ⟨"+1", some 1⟩] = .ok (.ok (2, 1)) ∧
    parse_nth [ComponentValue.ident "even"] = .ok (.ok (2, 0)) ∧
    parse_nth [ComponentValue.ident "-n-3"] = .ok (.ok (-1, -3)) ∧
    parse_nth [ComponentValue.delim '+', ComponentValue.whiteSpace,
               ComponentValue.ident "n"] = .ok (.error ()) :=
  ⟨rfl, rfl, rfl, rfl⟩

/-- Claim C10 (code bug): on the identifier `n-9999999999` — the shape
`n-` followed by digits whose value exceeds the i32 range —
`from_str::<i32>` returns `None`, the `assert!(result.is_some())` inside
`parse_n_dash_digits` fails, and `parse_nth` panics instead of returning
`Ok` or `Err`. -/
theorem parse_nth_overflow_panics :
    parse_nth [ComponentValue.ident "n-9999999999"] = .panicked ∧
    parse_n_dash_digits "n-9999999999" = .panicked ∧
    from_str_i32 "-9999999999" = none :=
  ⟨rfl, rfl, rfl⟩

/-- Counterexample for claim C8 as stated: the integer literal
`2147483648` has no fractional or exponent part, so the tokenizer gives it
a present `int_value`, yet its value does not fit the int32 range — the
claimed "iff" fails. -/
theorem int_value_int32_counterexample :
    ¬ (((consume_numeric numLitIntMaxPlusOne).int_value).isSome = true ↔
       (noFracOrExpChars (consume_numeric numLitIntMaxPlusOne).representation = true ∧
        fitsInt32 numLitIntMaxPlusOne.intValueInt)) := by
  decide

/-- The character of a digit value is not `.`, `e` or `E`. -/
theorem digitChar_ok {d : Nat} (h : d < 10) :
    (!(digitChar d == '.') && !(digitChar d == 'e') && !(digitChar d == 'E')) = true := by
  interval_cases d <;> decide

/-- Sign characters are not `.`, `e` or `E`. -/
theorem signChars_ok (os : Option Sign) :
    (signChars os).all (fun c => !(c == '.') && !(c == 'e') && !(c == 'E')) = true := by
  rcases os with _ | s
  · decide
  · cases s <;> decide

/-- A run of digit characters contains no `.`, `e` or `E`. -/
theorem digitsChars_ok {ds : List Nat} (h : ds.all (· < 10) = true) :
    (ds.map digitChar).all (fun c => !(c == '.') && !(c == 'e') && !(c == 'E')) = true := by
  rw [List.all_eq_true] at h ⊢
  intro c hc
  obtain ⟨d, hd, rfl⟩ := List.mem_map.mp hc
  exact digitChar_ok (by simpa using h d hd)

/-- Claim C8 (amended): for every well-formed numeric literal, the
`NumericValue` produced by the tokenizer has `int_value` present iff the
representation has no fractional or exponent part.  Presence is not
conditioned on the int32 range (the field's declared type is `Option<i64>`
and `parse_nth` truncates it with `as i32`); see
`int_value_int32_counterexample`. -/
theorem int_value_iff_integer_representation (lit : NumLit) (h : lit.wf = true) :
    ((consume_numeric lit).int_value).isSome = true ↔
      noFracOrExpChars (consume_numeric lit).representation = true := by
  have hrep : (consume_numeric lit).representation.data = renderChars lit := rfl
  rcases hf : lit.frac with _ | ds <;> rcases he : lit.exponent with _ | e
  · -- frac = none, exponent = none: both sides hold
    simp only [NumLit.wf, hf, he, Bool.and_true, Bool.and_eq_true] at h
    have hl : ((consume_numeric lit).int_value).isSome = true := by
      simp [consume_numeric, hf, he]
    rw [hl]
    simp only [true_iff]
    unfold noFracOrExpChars
    rw [hrep]
    unfold renderChars
    rw [hf, he]
    simp only [List.append_nil, List.all_append, Bool.and_eq_true]
    exact ⟨signChars_ok _, digitsChars_ok h.2⟩
  · -- frac = none, exponent = some: both sides fail
    have hl : ((consume_numeric lit).int_value).isSome = false := by
      simp [consume_numeric, he]
    rw [hl]
    constructor
    · intro hc; cases hc
    · intro hr
      exfalso
      have hmem : (if e.upper then 'E' else 'e') ∈ (consume_numeric lit).representation.data := by
        rw [hrep]; unfold renderChars; rw [hf, he]
        simp [List.mem_append]
      unfold noFracOrExpChars at hr
      rw [List.all_eq_true] at hr
      have hbad := hr _ hmem
      cases hb : e.upper <;> rw [hb] at hbad <;> simp at hbad
  · -- frac = some, exponent = none: both sides fail
    have hl : ((consume_numeric lit).int_value).isSome = false := by
      simp [consume_numeric, hf]
    rw [hl]
    constructor
    · intro hc; cases hc
    · intro hr
      exfalso
      have hmem : ('.' : Char) ∈ (consume_numeric lit).representation.data := by
        rw [hrep]; unfold renderChars; rw [hf, he]
        simp [List.mem_append]
      unfold noFracOrExpChars at hr
      rw [List.all_eq_true] at hr
      have hbad := hr _ hmem
      simp at hbad
  · -- frac = some, exponent = some: both sides fail
    have hl : ((consume_numeric lit).int_value).isSome = false := by
      simp [consume_numeric, hf]
    rw [hl]
    constructor
    · intro hc; cases hc
    · intro hr
      exfalso
      have hmem : ('.' : Char) ∈ (consume_numeric lit).representation.data := by
        rw [hrep]; unfold renderChars; rw [hf, he]
        simp [List.mem_append]
      unfold noFracOrExpChars at hr
      rw [List.all_eq_true] at hr
      have hbad := hr _ hmem
      simp at hbad

/-- Witness for the amended C8 theorem at the literal `12`. -/
theorem int_value_iff_integer_representation_witness :
    numLitTwelve.wf = true ∧
    (((consume_numeric numLitTwelve).int_value).isSome = true ↔
      noFracOrExpChars (consume_numeric numLitTwelve).representation = true) :=
  ⟨by decide, int_value_iff_integer_representation numLitTwelve (by decide)⟩

theorem until_before_no_delim {α : Type} (p : Parser) (d : Delimiters)
    (f : Parser → Except Unit α × Parser)
    (hstop : p.stop = Delimiters.emptySet) (hpos : p.pos ≤ p.tokens.length)
    (h : firstStopIdx d (p.tokens.drop p.pos) = none) :
    (p.parse_until_before d f).2 = { p with pos := p.tokens.length } := by
  rw [parse_until_before_snd, hstop, empty_union]
  have hn : p.pos + scanCount d (p.tokens.drop p.pos) = p.tokens.length := by
    rw [firstStopIdx_none_scanCount h, List.length_drop]
    omega
  rw [hn]

theorem until_before_at_delim {α : Type} (p : Parser) (d : Delimiters)
    (f : Parser → Except Unit α × Parser) {i : Nat}
    (hstop : p.stop = Delimiters.emptySet)
    (h : firstStopIdx d (p.tokens.drop p.pos) = some i) :
    (p.parse_until_before d f).2 = { p with pos := p.pos + i } ∧
    ∃ t, (p.tokens.drop (p.pos + i)).head? = some t ∧ d.stopsAt t = true ∧
      ({ p with pos := p.pos + i } : Parser).next
        = (some t, { p with pos := p.pos + i + 1 }) := by
  have hscan : scanCount d (p.tokens.drop p.pos) = i := firstStopIdx_scanCount h
  refine ⟨by rw [parse_until_before_snd, hstop, empty_union, hscan], ?_⟩
  obtain ⟨t, ht, hts⟩ := firstStopIdx_head h
  rw [List.drop_drop] at ht
  refine ⟨t, ht, hts, ?_⟩
  have hnext := Parser.next_eq_some_of_head_tok
    (q := { p with pos := p.pos + i }) (t := t) ht (stopsAt_not_wsOrComment hts)
    (by rw [hstop]; exact stopsAt_empty t)
  exact hnext

theorem next_at_end (p : Parser) (h : p.tokens.length ≤ p.pos) : p.next = (none, p) := by
  apply Parser.next_eq_none_of_head_none
  rw [List.drop_eq_nil_of_le h]
  rfl

/-- Claim C3: in `parse_qualified_rule`, whenever a `CurlyBracketBlock`
token follows the prelude, the block is consumed from the input even when
the prelude parser returned `Err` (and the whole rule is then `Err`); and
when end-of-input is reached with no `CurlyBracketBlock` after the
prelude, the qualified rule is dropped with an error. -/
theorem qualified_rule_block_always_consumed {P R : Type}
    (parser : QualifiedRuleParserImpl P R) (input : Parser)
    (hstop : input.stop = Delimiters.emptySet)
    (hpos : input.pos ≤ input.tokens.length) :
    (∀ i cs, firstStopIdx Delimiter.CurlyBracketBlock (input.tokens.drop input.pos) = some i →
       (input.tokens.drop (input.pos + i)).head? = some (.curlyBracketBlock cs) →
       (parse_qualified_rule input parser).2.pos = input.pos + i + 1 ∧
       ((parser.parse_prelude
           { input with stop := input.stop.union Delimiter.CurlyBracketBlock }).1 = .error () →
         (parse_qualified_rule input parser).1 = .error ())) ∧
    (firstStopIdx Delimiter.CurlyBracketBlock (input.tokens.drop input.pos) = none →
       (parse_qualified_rule input parser).1 = .error () ∧
       (parse_qualified_rule input parser).2.pos = input.tokens.length) := by
  constructor
  · intro i cs hidx hcs
    obtain ⟨hsnd, t, ht, hts, hnext⟩ := until_before_at_delim input
      Delimiter.CurlyBracketBlock (fun input => parser.parse_prelude input) hstop hidx
    have htc : t = Token.curlyBracketBlock cs := by
      rw [ht] at hcs; exact (Option.some.injEq _ _).mp hcs
    subst htc
    unfold parse_qualified_rule
    rw [hsnd]
    simp only []
    rw [hnext]
    constructor
    · cases hp : (parser.parse_prelude
        { input with stop := input.stop.union Delimiter.CurlyBracketBlock }).1 with
      | ok pl => rw [parse_until_before_fst, hp]; try rfl
      | error e => rw [parse_until_before_fst, hp]; try rfl
    · intro hp
      rw [parse_until_before_fst, hp]
      try rfl
  · intro hidx
    have hsnd := until_before_no_delim input Delimiter.CurlyBracketBlock
      (fun input => parser.parse_prelude input) hstop hpos hidx
    have hend : ({ input with pos := input.tokens.length } : Parser).next
        = (none, { input with pos := input.tokens.length }) :=
      next_at_end _ (le_refl _)
    unfold parse_qualified_rule
    rw [hsnd]
    simp only []
    rw [hend]
    exact ⟨rfl, rfl⟩

/-- Witness for the qualified-rule theorem: `a {}` with a rejecting
prelude parser — the block is consumed (final position 2) and the rule is
an error. -/
theorem qualified_rule_block_always_consumed_witness :
    witQualInput.stop = Delimiters.emptySet ∧
    witQualInput.pos ≤ witQualInput.tokens.length ∧
    firstStopIdx Delimiter.CurlyBracketBlock
      (witQualInput.tokens.drop witQualInput.pos) = some 1 ∧
    (witQualInput.tokens.drop (witQualInput.pos + 1)).head?
      = some (.curlyBracketBlock []) ∧
    (parse_qualified_rule witQualInput witQualParser).2.pos = witQualInput.pos + 1 + 1 ∧
    (parse_qualified_rule witQualInput witQualParser).1 = .error () := by
  have h := (qualified_rule_block_always_consumed witQualParser witQualInput rfl
    (by decide)).1 1 [] rfl rfl
  exact ⟨rfl, by decide, rfl, rfl, h.1, h.2 rfl⟩

/-- Claim C4: in `parse_at_rule`, when the prelude parser returns
`WithoutBlock(rule)`, the pipeline yields `Ok(rule)` exactly when the
token stopping the prelude is a `Semicolon` or end-of-input, and yields an
error range for the at-rule when a `CurlyBracketBlock` was seen instead
(the stopping token can only be one of these). -/
theorem at_rule_without_block_cases {P R : Type}
    (parser : AtRuleParserImpl P R) (input : Parser) (s0 : Nat) (name : String) (rule : R)
    (hstop : input.stop = Delimiters.emptySet)
    (hpos : input.pos ≤ input.tokens.length)
    (hp : (parser.parse_prelude name
        { input with stop :=
            input.stop.union (Delimiter.Semicolon.union Delimiter.CurlyBracketBlock) }).1
      = .ok (.WithoutBlock rule)) :
    (firstStopIdx (Delimiter.Semicolon.union Delimiter.CurlyBracketBlock)
        (input.tokens.drop input.pos) = none →
      ∃ out, parse_at_rule s0 name input parser = .ok (.ok rule, out)) ∧
    (∀ i, firstStopIdx (Delimiter.Semicolon.union Delimiter.CurlyBracketBlock)
        (input.tokens.drop input.pos) = some i →
      ((input.tokens.drop (input.pos + i)).head? = some .semicolon →
        ∃ out, parse_at_rule s0 name input parser = .ok (.ok rule, out)) ∧
      (∀ cs, (input.tokens.drop (input.pos + i)).head? = some (.curlyBracketBlock cs) →
        ∃ out, parse_at_rule s0 name input parser
          = .ok (.error (s0, input.pos + i + 1), out)) ∧
      (∃ t, (input.tokens.drop (input.pos + i)).head? = some t ∧
        (t = .semicolon ∨ ∃ cs, t = .curlyBracketBlock cs))) := by
  constructor
  · intro hidx
    have hsnd := until_before_no_delim input
      (Delimiter.Semicolon.union Delimiter.CurlyBracketBlock)
      (fun input => parser.parse_prelude name input) hstop hpos hidx
    refine ⟨{ input with pos := input.tokens.length }, ?_⟩
    unfold parse_at_rule
    simp only []
    rw [parse_until_before_fst, hsnd]
    simp only []
    rw [hp]
    rw [next_at_end _ (le_refl _)]
    try rfl
  · intro i hidx
    obtain ⟨hsnd, t, ht, hts, hnext⟩ := until_before_at_delim input
      (Delimiter.Semicolon.union Delimiter.CurlyBracketBlock)
      (fun input => parser.parse_prelude name input) hstop hidx
    rcases semi_curly_inversion hts with htv | ⟨cs, htv⟩ <;> subst htv
    · refine ⟨fun _ => ⟨{ input with pos := input.pos + i + 1 }, ?_⟩,
        fun cs hcs => ?_, ⟨_, ht, Or.inl rfl⟩⟩
      · unfold parse_at_rule
        simp only []
        rw [parse_until_before_fst, hsnd]
        simp only []
        rw [hp, hnext]
        try rfl
      · rw [ht] at hcs; cases hcs
    · refine ⟨fun hcs => ?_, fun cs' hcs => ?_, ⟨_, ht, Or.inr ⟨cs, rfl⟩⟩⟩
      · rw [ht] at hcs; cases hcs
      · have hcsv : Token.curlyBracketBlock cs = Token.curlyBracketBlock cs' := by
          rw [ht] at hcs; exact (Option.some.injEq _ _).mp hcs
        cases hcsv
        refine ⟨{ input with pos := input.pos + i + 1 }, ?_⟩
        unfold parse_at_rule
        simp only []
        rw [parse_until_before_fst, hsnd]
        simp only []
        rw [hp, hnext]
        try rfl

theorem parse_nested_block_fst {α : Type} (p : Parser) (children : List Token)
    (f : Parser → Except Unit α × Parser) :
    (p.parse_nested_block children f).1
      = (f { tokens := children, pos := 0, stop := Delimiters.emptySet }).1 := rfl

/-- Witness for the `WithoutBlock` at-rule theorem: `@wb ;` — the prelude
stops at the semicolon and the rule is yielded. -/
theorem at_rule_without_block_cases_witness :
    witSemiInput.stop = Delimiters.emptySet ∧
    (witAtParser.parse_prelude "wb"
        { witSemiInput with stop :=
            witSemiInput.stop.union (Delimiter.Semicolon.union Delimiter.CurlyBracketBlock) }).1
      = .ok (.WithoutBlock 1) ∧
    (∃ out, parse_at_rule 0 "wb" witSemiInput witAtParser = .ok (.ok 1, out)) :=
  ⟨rfl, rfl,
    ((at_rule_without_block_cases witAtParser witSemiInput 0 "wb" 1 rfl (by decide) rfl).2
      0 rfl).1 rfl⟩

/-- Claim C5: in `parse_at_rule`, when the prelude parser returns
`OptionalBlock(prelude)`, a following `Semicolon` or end-of-input yields
`Ok(rule_without_block(prelude))` (end-of-input handled exactly like the
semicolon), while a following `CurlyBracketBlock` runs
`parse_block(prelude)` over the block interior in a nested parser and
yields its result (an error range when the block parser fails). -/
theorem at_rule_optional_block_cases {P R : Type}
    (parser : AtRuleParserImpl P R) (input : Parser) (s0 : Nat) (name : String) (prelude : P)
    (hstop : input.stop = Delimiters.emptySet)
    (hpos : input.pos ≤ input.tokens.length)
    (hp : (parser.parse_prelude name
        { input with stop :=
            input.stop.union (Delimiter.Semicolon.union Delimiter.CurlyBracketBlock) }).1
      = .ok (.OptionalBlock prelude)) :
    (firstStopIdx (Delimiter.Semicolon.union Delimiter.CurlyBracketBlock)
        (input.tokens.drop input.pos) = none →
      ∃ out, parse_at_rule s0 name input parser
        = .ok (.ok (parser.rule_without_block prelude), out)) ∧
    (∀ i, firstStopIdx (Delimiter.Semicolon.union Delimiter.CurlyBracketBlock)
        (input.tokens.drop input.pos) = some i →
      ((input.tokens.drop (input.pos + i)).head? = some .semicolon →
        ∃ out, parse_at_rule s0 name input parser
          = .ok (.ok (parser.rule_without_block prelude), out)) ∧
      (∀ cs, (input.tokens.drop (input.pos + i)).head? = some (.curlyBracketBlock cs) →
        ∃ out, parse_at_rule s0 name input parser
          = .ok (((parser.parse_block prelude
              { tokens := cs, pos := 0, stop := Delimiters.emptySet }).1).mapError
                (fun _ => (s0, input.pos + i + 1)), out))) := by
  constructor
  · intro hidx
    have hsnd := until_before_no_delim input
      (Delimiter.Semicolon.union Delimiter.CurlyBracketBlock)
      (fun input => parser.parse_prelude name input) hstop hpos hidx
    refine ⟨{ input with pos := input.tokens.length }, ?_⟩
    unfold parse_at_rule
    simp only []
    rw [parse_until_before_fst, hsnd]
    simp only []
    rw [hp]
    rw [next_at_end _ (le_refl _)]
    try rfl
  · intro i hidx
    obtain ⟨hsnd, t, ht, hts, hnext⟩ := until_before_at_delim input
      (Delimiter.Semicolon.union Delimiter.CurlyBracketBlock)
      (fun input => parser.parse_prelude name input) hstop hidx
    constructor
    · intro hsemi
      have htv : t = Token.semicolon := by
        rw [ht] at hsemi; exact (Option.some.injEq _ _).mp hsemi
      subst htv
      refine ⟨{ input with pos := input.pos + i + 1 }, ?_⟩
      unfold parse_at_rule
      simp only []
      rw [parse_until_before_fst, hsnd]
      simp only []
      rw [hp, hnext]
      try rfl
    · intro cs hcs
      have htv : t = Token.curlyBracketBlock cs := by
        rw [ht] at hcs; exact (Option.some.injEq _ _).mp hcs
      subst htv
      refine ⟨{ input with pos := input.pos + i + 1 }, ?_⟩
      unfold parse_at_rule
      simp only []
      rw [parse_until_before_fst, hsnd]
      simp only []
      rw [hp, hnext]
      try simp only []
      rw [parse_nested_block_fst]
      try simp only []
      cases hb : (parser.parse_block prelude
          { tokens := cs, pos := 0, stop := Delimiters.emptySet }).1 with
      | ok r => rfl
      | error e => rfl

/-- Witness for the `OptionalBlock` at-rule theorem: `@ob {}` — the block
runs the block parser and its result is yielded. -/
theorem at_rule_optional_block_cases_witness :
    witCurlyInput.stop = Delimiters.emptySet ∧
    (witAtParser.parse_prelude "ob"
        { witCurlyInput with stop :=
            witCurlyInput.stop.union (Delimiter.Semicolon.union Delimiter.CurlyBracketBlock) }).1
      = .ok (.OptionalBlock ()) ∧
    (∃ out, parse_at_rule 0 "ob" witCurlyInput witAtParser
      = .ok (((witAtParser.parse_block ()
          { tokens := [], pos := 0, stop := Delimiters.emptySet }).1).mapError
            (fun _ => (0, witCurlyInput.pos + 0 + 1)), out)) :=
  ⟨rfl, rfl,
    ((at_rule_optional_block_cases witAtParser witCurlyInput 0 "ob" () rfl (by decide) rfl).2
      0 rfl).2 [] rfl⟩

/-- Claim C6: in `parse_at_rule`, when the prelude parser fails, the input
up to and including the next `Semicolon` or `CurlyBracketBlock` (or to
end-of-input) is discarded, and the yielded error carries the source range
from the start of the at-rule to the position just before the discarded
delimiter. -/
theorem at_rule_invalid_prelude_recovery {P R : Type}
    (parser : AtRuleParserImpl P R) (input : Parser) (s0 : Nat) (name : String)
    (hstop : input.stop = Delimiters.emptySet)
    (hpos : input.pos ≤ input.tokens.length)
    (hp : (parser.parse_prelude name
        { input with stop :=
            input.stop.union (Delimiter.Semicolon.union Delimiter.CurlyBracketBlock) }).1
      = .error ()) :
    (∀ i, firstStopIdx (Delimiter.Semicolon.union Delimiter.CurlyBracketBlock)
        (input.tokens.drop input.pos) = some i →
      ∃ t out, (input.tokens.drop (input.pos + i)).head? = some t ∧
        (t = .semicolon ∨ ∃ cs, t = .curlyBracketBlock cs) ∧
        parse_at_rule s0 name input parser = .ok (.error (s0, input.pos + i), out) ∧
        out.pos = input.pos + i + 1) ∧
    (firstStopIdx (Delimiter.Semicolon.union Delimiter.CurlyBracketBlock)
        (input.tokens.drop input.pos) = none →
      ∃ out, parse_at_rule s0 name input parser
        = .ok (.error (s0, input.tokens.length), out) ∧
        out.pos = input.tokens.length) := by
  constructor
  · intro i hidx
    obtain ⟨hsnd, t, ht, hts, hnext⟩ := until_before_at_delim input
      (Delimiter.Semicolon.union Delimiter.CurlyBracketBlock)
      (fun input => parser.parse_prelude name input) hstop hidx
    refine ⟨t, { input with pos := input.pos + i + 1 }, ht, semi_curly_inversion hts, ?_, rfl⟩
    rcases semi_curly_inversion hts with htv | ⟨cs, htv⟩ <;> subst htv <;>
      (unfold parse_at_rule
       simp only []
       rw [parse_until_before_fst, hsnd]
       simp only []
       rw [hp, hnext]
       try rfl)
  · intro hidx
    have hsnd := until_before_no_delim input
      (Delimiter.Semicolon.union Delimiter.CurlyBracketBlock)
      (fun input => parser.parse_prelude name input) hstop hpos hidx
    refine ⟨{ input with pos := input.tokens.length }, ?_, rfl⟩
    unfold parse_at_rule
    simp only []
    rw [parse_until_before_fst, hsnd]
    simp only []
    rw [hp]
    rw [next_at_end _ (le_refl _)]
    try rfl

/-- Witness for the invalid-prelude recovery theorem: `@bad ;` — the
semicolon is discarded and the error range ends just before it. -/
theorem at_rule_invalid_prelude_recovery_witness :
    witSemiInput.stop = Delimiters.emptySet ∧
    (witAtParser.parse_prelude "bad"
        { witSemiInput with stop :=
            witSemiInput.stop.union (Delimiter.Semicolon.union Delimiter.CurlyBracketBlock) }).1
      = .error () ∧
    (∃ t out, (witSemiInput.tokens.drop (witSemiInput.pos + 0)).head? = some t ∧
      (t = .semicolon ∨ ∃ cs, t = .curlyBracketBlock cs) ∧
      parse_at_rule 0 "bad" witSemiInput witAtParser
        = .ok (.error (0, witSemiInput.pos + 0), out) ∧
      out.pos = witSemiInput.pos + 0 + 1) :=
  ⟨rfl, rfl,
    (at_rule_invalid_prelude_recovery witAtParser witSemiInput 0 "bad" rfl (by decide) rfl).1
      0 rfl⟩

theorem nextIncl_some {q : Parser} {t : Token}
    (hh : (q.tokens.drop q.pos).head? = some t) (hs : q.stop.stopsAt t = false) :
    q.next_including_whitespace_and_comments = (some t, { q with pos := q.pos + 1 }) := by
  unfold Parser.next_including_whitespace_and_comments
  rw [hh]
  simp [hs]

/-- Claim C2: when the next token is `Ident(name)`, a step of
`DeclarationListParser::next` runs `expect_colon` followed by the user's
`parse_value` inside a sub-parser delimited by `Semicolon`; the yielded
item is `Ok(declaration)` when that closure succeeds and otherwise an
error carrying the range from the start of the item to the position after
recovery, and the outer cursor ends just past the next semicolon (or at
end-of-input when there is none) — so that
`"color: red; bogus; width: 1px"` parses to exactly two valid
declarations (`color`, `width`) and one error item covering `bogus`. -/
theorem declaration_ident_step {Q D : Type} (s : DeclarationListParser Q D) (name : String)
    (hstop : s.input.stop = Delimiters.emptySet)
    (hident : (s.input.tokens.drop s.input.pos).head? = some (.ident name)) :
    (∃ out item, s.next = .ok (some item, out) ∧
      out.input.tokens = s.input.tokens ∧
      item = (match (declValueClosure s.declParser name
          { s.input with pos := s.input.pos + 1,
                         stop := s.input.stop.union Delimiter.Semicolon }).1 with
        | .ok d => .ok d
        | .error () => .error (s.input.pos, out.input.pos)) ∧
      (match firstStopIdx Delimiter.Semicolon (s.input.tokens.drop (s.input.pos + 1)) with
       | some i => out.input.pos = s.input.pos + 1 + i + 1
       | none => out.input.pos = s.input.tokens.length)) ∧
    DeclarationListParser.items colorRedDeclList
      = .ok [.ok ("color", [Token.ident "red"]),
             .error (6, 8),
             .ok ("width", [Token.dimension ⟨"1", some 1⟩ "px"])] := by
  refine ⟨?_, rfl⟩
  obtain ⟨rest, hrest⟩ : ∃ rest, s.input.tokens.drop s.input.pos = Token.ident name :: rest := by
    cases hc : s.input.tokens.drop s.input.pos with
    | nil => rw [hc] at hident; cases hident
    | cons a l =>
      rw [hc] at hident
      simp only [List.head?, Option.some.injEq] at hident
      exact ⟨l, by rw [hident]⟩
  have hskip : declSkip s.input.stop (s.input.tokens.drop s.input.pos) = 0 := by
    rw [hrest]; rfl
  have hincl : (Parser.next_including_whitespace_and_comments
      { tokens := s.input.tokens, pos := s.input.pos + 0, stop := s.input.stop })
      = (some (.ident name),
         { tokens := s.input.tokens, pos := s.input.pos + 0 + 1, stop := s.input.stop }) := by
    apply nextIncl_some
    · simpa using hident
    · rfl
  have hlt : s.input.pos < s.input.tokens.length := head_drop_lt hident
  -- the sub-parser after the ident token
  have hfst : ((Parser.parse_until_after
      { tokens := s.input.tokens, pos := s.input.pos + 0 + 1, stop := s.input.stop }
      Delimiter.Semicolon (declValueClosure s.declParser name)).1)
      = (declValueClosure s.declParser name
          { s.input with pos := s.input.pos + 1,
                         stop := s.input.stop.union Delimiter.Semicolon }).1 := by
    rw [parse_until_after_fst, parse_until_before_fst]
  cases hfs : firstStopIdx Delimiter.Semicolon (s.input.tokens.drop (s.input.pos + 1)) with
  | some i =>
    obtain ⟨t, ht, hts⟩ := firstStopIdx_head hfs
    rw [List.drop_drop] at ht
    have htv : t = Token.semicolon := semi_inversion hts
    subst htv
    have hsnd : ((Parser.parse_until_after
        { tokens := s.input.tokens, pos := s.input.pos + 0 + 1, stop := s.input.stop }
        Delimiter.Semicolon (declValueClosure s.declParser name)).2)
        = { tokens := s.input.tokens, pos := s.input.pos + 1 + i + 1,
            stop := s.input.stop } := by
      rw [parse_until_after_snd]
      simp only [parse_until_before_snd]
      rw [hstop, empty_union, firstStopIdx_scanCount hfs]
      try simp only []
      rw [show s.input.pos + 0 + 1 + i = s.input.pos + 1 + i by omega] at ht ⊢
      rw [ht]
      rfl
    cases hv : (declValueClosure s.declParser name
        { s.input with pos := s.input.pos + 1,
                       stop := s.input.stop.union Delimiter.Semicolon }).1 with
    | ok d =>
      have hstep : s.next = .ok (some (.ok d),
          ⟨⟨s.input.tokens, s.input.pos + 1 + i + 1, s.input.stop⟩,
            s.declParser, s.atParser⟩) := by
        unfold DeclarationListParser.next
        simp only []
        rw [hskip, hincl]
        simp only []
        rw [hfst, hsnd, hv]
        try rfl
      refine ⟨_, .ok d, hstep, rfl, ?_, ?_⟩
      · rfl
      · rfl
    | error e =>
      have hstep : s.next = .ok (some (.error (s.input.pos + 0, s.input.pos + 1 + i + 1)),
          ⟨⟨s.input.tokens, s.input.pos + 1 + i + 1, s.input.stop⟩,
            s.declParser, s.atParser⟩) := by
        unfold DeclarationListParser.next
        simp only []
        rw [hskip, hincl]
        simp only []
        rw [hfst, hsnd, hv]
        try rfl
      refine ⟨_, .error (s.input.pos + 0, s.input.pos + 1 + i + 1), hstep, rfl, ?_, ?_⟩
      · rfl
      · rfl
  | none =>
    have hsnd : ((Parser.parse_until_after
        { tokens := s.input.tokens, pos := s.input.pos + 0 + 1, stop := s.input.stop }
        Delimiter.Semicolon (declValueClosure s.declParser name)).2)
        = { tokens := s.input.tokens, pos := s.input.tokens.length,
            stop := s.input.stop } := by
      rw [parse_until_after_snd]
      simp only [parse_until_before_snd]
      rw [hstop, empty_union, firstStopIdx_none_scanCount hfs]
      try simp only []
      rw [show s.input.pos + 0 + 1 + (s.input.tokens.drop (s.input.pos + 1)).length
            = s.input.tokens.length by rw [List.length_drop]; omega]
      rw [List.drop_length]
      rfl
    cases hv : (declValueClosure s.declParser name
        { s.input with pos := s.input.pos + 1,
                       stop := s.input.stop.union Delimiter.Semicolon }).1 with
    | ok d =>
      have hstep : s.next = .ok (some (.ok d),
          ⟨⟨s.input.tokens, s.input.tokens.length, s.input.stop⟩,
            s.declParser, s.atParser⟩) := by
        unfold DeclarationListParser.next
        simp only []
        rw [hskip, hincl]
        simp only []
        rw [hfst, hsnd, hv]
        try rfl
      refine ⟨_, .ok d, hstep, rfl, ?_, ?_⟩
      · rfl
      · rfl
    | error e =>
      have hstep : s.next = .ok (some (.error (s.input.pos + 0, s.input.tokens.length)),
          ⟨⟨s.input.tokens, s.input.tokens.length, s.input.stop⟩,
            s.declParser, s.atParser⟩) := by
        unfold DeclarationListParser.next
        simp only []
        rw [hskip, hincl]
        simp only []
        rw [hfst, hsnd, hv]
        try rfl
      refine ⟨_, .error (s.input.pos + 0, s.input.tokens.length), hstep, rfl, ?_, ?_⟩
      · rfl
      · rfl

/-- Witness for the declaration-ident-step theorem at the
`"color: red; bogus; width: 1px"` fixture. -/
theorem declaration_ident_step_witness :
    colorRedDeclList.input.stop = Delimiters.emptySet ∧
    (colorRedDeclList.input.tokens.drop colorRedDeclList.input.pos).head?
      = some (.ident "color") ∧
    DeclarationListParser.items colorRedDeclList
      = .ok [.ok ("color", [Token.ident "red"]),
             .error (6, 8),
             .ok ("width", [Token.dimension ⟨"1", some 1⟩ "px"])] :=
  ⟨rfl, rfl, (declaration_ident_step colorRedDeclList "color" rfl rfl).2⟩

theorem declSkip_le (stop : Delimiters) (l : List Token) : declSkip stop l ≤ l.length := by
  induction l with
  | nil => simp [declSkip]
  | cons t rest ih =>
    simp only [declSkip, List.length_cons]
    split
    · omega
    · split <;> omega

theorem ruleSkip_le (b : Bool) (stop : Delimiters) (l : List Token) :
    ruleSkip b stop l ≤ l.length := by
  induction l with
  | nil => simp [ruleSkip]
  | cons t rest ih =>
    simp only [ruleSkip, List.length_cons]
    split
    · omega
    · split
      any_goals omega
      all_goals split <;> omega

theorem nextIncl_none_end {q : Parser} (hh : (q.tokens.drop q.pos).head? = none) :
    q.next_including_whitespace_and_comments = (none, q) := by
  unfold Parser.next_including_whitespace_and_comments
  rw [hh]

theorem nextIncl_none_stop {q : Parser} {t : Token}
    (hh : (q.tokens.drop q.pos).head? = some t) (hs : q.stop.stopsAt t = true) :
    q.next_including_whitespace_and_comments = (none, q) := by
  unfold Parser.next_including_whitespace_and_comments
  rw [hh]
  simp [hs]

theorem head_none_le {l : List Token} {n : Nat} (h : (l.drop n).head? = none) :
    l.length ≤ n := by
  by_contra hn
  push_neg at hn
  cases hc : l.drop n with
  | nil =>
    have := List.length_drop n l
    rw [hc] at this
    simp at this
    omega
  | cons a r => rw [hc] at h; cases h

theorem next_bounds (q : Parser) :
    q.pos ≤ (q.next).2.pos ∧ (q.next).2.tokens = q.tokens ∧ (q.next).2.stop = q.stop ∧
    (q.pos ≤ q.tokens.length → (q.next).2.pos ≤ q.tokens.length) := by
  have hw := wsCommentCount_le (q.tokens.drop q.pos)
  rw [List.length_drop] at hw
  unfold Parser.next Parser.skipWs Parser.next_including_whitespace_and_comments
  simp only []
  split
  · exact ⟨Nat.le_add_right _ _, rfl, rfl,
      fun h => (by omega : q.pos + wsCommentCount (q.tokens.drop q.pos) ≤ q.tokens.length)⟩
  · rename_i t heq
    have hlt := head_drop_lt heq
    split
    · exact ⟨Nat.le_add_right _ _, rfl, rfl,
        fun h => (by omega : q.pos + wsCommentCount (q.tokens.drop q.pos) ≤ q.tokens.length)⟩
    · exact ⟨(by omega : q.pos ≤ q.pos + wsCommentCount (q.tokens.drop q.pos) + 1), rfl, rfl,
        fun h =>
          (by omega : q.pos + wsCommentCount (q.tokens.drop q.pos) + 1 ≤ q.tokens.length)⟩

theorem until_after_bounds {α : Type} (p : Parser) (d : Delimiters)
    (f : Parser → Except Unit α × Parser) :
    p.pos ≤ (p.parse_until_after d f).2.pos ∧
    (p.parse_until_after d f).2.tokens = p.tokens ∧
    (p.parse_until_after d f).2.stop = p.stop ∧
    (p.pos ≤ p.tokens.length → (p.parse_until_after d f).2.pos ≤ p.tokens.length) := by
  have hsc := scanCount_le (p.stop.union d) (p.tokens.drop p.pos)
  rw [List.length_drop] at hsc
  rw [parse_until_after_snd]
  simp only [parse_until_before_snd]
  split
  · exact ⟨Nat.le_add_right _ _, rfl, rfl,
      fun h =>
        (by omega : p.pos + scanCount (p.stop.union d) (p.tokens.drop p.pos)
          ≤ p.tokens.length)⟩
  · rename_i t heq
    have hlt := head_drop_lt heq
    split
    · exact ⟨Nat.le_add_right _ _, rfl, rfl,
        fun h =>
          (by omega : p.pos + scanCount (p.stop.union d) (p.tokens.drop p.pos)
            ≤ p.tokens.length)⟩
    · exact ⟨(by omega :
          p.pos ≤ p.pos + scanCount (p.stop.union d) (p.tokens.drop p.pos) + 1), rfl, rfl,
        fun h =>
          (by omega : p.pos + scanCount (p.stop.union d) (p.tokens.drop p.pos) + 1
            ≤ p.tokens.length)⟩

theorem next_shape_of_stopped {q : Parser} {d : Delimiters}
    (hq : ∀ t, (q.tokens.drop q.pos).head? = some t → (q.stop.union d).stopsAt t = true) :
    q.next = (none, q) ∨
    ∃ t, d.stopsAt t = true ∧ q.stop.stopsAt t = false ∧
      q.next = (some t, { q with pos := q.pos + 1 }) ∧ q.pos < q.tokens.length := by
  cases hx : (q.tokens.drop q.pos).head? with
  | none => exact Or.inl (Parser.next_eq_none_of_head_none q hx)
  | some t =>
    have hu := hq t hx
    have hw := stopsAt_not_wsOrComment hu
    by_cases hs : q.stop.stopsAt t = true
    · exact Or.inl (Parser.next_eq_none_of_head_stop hx hw hs)
    · rw [Bool.not_eq_true] at hs
      refine Or.inr ⟨t, ?_, hs, Parser.next_eq_some_of_head_tok hx hw hs, head_drop_lt hx⟩
      rw [stopsAt_union] at hu
      rcases Bool.or_eq_true_iff.mp hu with h1 | h2
      · rw [hs] at h1; cases h1
      · exact h2

theorem parse_at_rule_ok {P R : Type} (s0 : Nat) (name : String)
    (input : Parser) (parser : AtRuleParserImpl P R) :
    ∃ r out, parse_at_rule s0 name input parser = .ok (r, out) ∧
      input.pos ≤ out.pos ∧ out.tokens = input.tokens ∧ out.stop = input.stop ∧
      (input.pos ≤ input.tokens.length → out.pos ≤ input.tokens.length) := by
  have hsc := scanCount_le (input.stop.union (Delimiter.Semicolon.union Delimiter.CurlyBracketBlock))
    (input.tokens.drop input.pos)
  rw [List.length_drop] at hsc
  have hp1 : input.pos ≤ (input.parse_until_before
      (Delimiter.Semicolon.union Delimiter.CurlyBracketBlock)
      (fun input => parser.parse_prelude name input)).2.pos := by
    rw [parse_until_before_snd]; exact Nat.le_add_right _ _
  have hp2 : (input.parse_until_before
      (Delimiter.Semicolon.union Delimiter.CurlyBracketBlock)
      (fun input => parser.parse_prelude name input)).2.tokens = input.tokens := by
    rw [parse_until_before_snd]
  have hp3 : (input.parse_until_before
      (Delimiter.Semicolon.union Delimiter.CurlyBracketBlock)
      (fun input => parser.parse_prelude name input)).2.stop = input.stop := by
    rw [parse_until_before_snd]
  have hp4 : input.pos ≤ input.tokens.length → (input.parse_until_before
      (Delimiter.Semicolon.union Delimiter.CurlyBracketBlock)
      (fun input => parser.parse_prelude name input)).2.pos ≤ input.tokens.length := by
    intro h; rw [parse_until_before_snd]
    exact (by omega : input.pos + scanCount
      (input.stop.union (Delimiter.Semicolon.union Delimiter.CurlyBracketBlock))
      (input.tokens.drop input.pos) ≤ input.tokens.length)
  have hshape := next_shape_of_stopped
    (q := (input.parse_until_before (Delimiter.Semicolon.union Delimiter.CurlyBracketBlock)
      (fun input => parser.parse_prelude name input)).2)
    (d := Delimiter.Semicolon.union Delimiter.CurlyBracketBlock)
    (fun t ht => parse_until_before_head input _ _ ht)
  rcases hshape with hnone | ⟨t, htd, hts, hnext, hlt⟩
  · cases hpre : (parser.parse_prelude name
        { input with stop := input.stop.union (Delimiter.Semicolon.union Delimiter.CurlyBracketBlock) }).1 with
    | error e =>
      cases e
      unfold parse_at_rule
      try simp only []
      rw [parse_until_before_fst]
      try simp only []
      rw [hpre, hnone]
      exact ⟨_, _, rfl, hp1, hp2, hp3, hp4⟩
    | ok art =>
      cases art with
      | WithoutBlock rule =>
        unfold parse_at_rule
        try simp only []
        rw [parse_until_before_fst]
        try simp only []
        rw [hpre, hnone]
        exact ⟨_, _, rfl, hp1, hp2, hp3, hp4⟩
      | WithBlock prelude =>
        unfold parse_at_rule
        try simp only []
        rw [parse_until_before_fst]
        try simp only []
        rw [hpre, hnone]
        exact ⟨_, _, rfl, hp1, hp2, hp3, hp4⟩
      | OptionalBlock prelude =>
        unfold parse_at_rule
        try simp only []
        rw [parse_until_before_fst]
        try simp only []
        rw [hpre, hnone]
        exact ⟨_, _, rfl, hp1, hp2, hp3, hp4⟩
  · rw [hp2] at hlt
    have hq1 : input.pos ≤ (input.parse_until_before
        (Delimiter.Semicolon.union Delimiter.CurlyBracketBlock)
        (fun input => parser.parse_prelude name input)).2.pos + 1 := by omega
    have hq4 : input.pos ≤ input.tokens.length → (input.parse_until_before
        (Delimiter.Semicolon.union Delimiter.CurlyBracketBlock)
        (fun input => parser.parse_prelude name input)).2.pos + 1 ≤ input.tokens.length := by
      intro h; omega
    rcases semi_curly_inversion htd with htv | ⟨cs, htv⟩ <;> subst htv
    · -- stopped at a semicolon
      cases hpre : (parser.parse_prelude name
          { input with stop := input.stop.union (Delimiter.Semicolon.union Delimiter.CurlyBracketBlock) }).1 with
      | error e =>
        cases e
        unfold parse_at_rule
        try simp only []
        rw [parse_until_before_fst]
        try simp only []
        rw [hpre, hnext]
        exact ⟨_, _, rfl, hq1, hp2, hp3, hq4⟩
      | ok art =>
        cases art with
        | WithoutBlock rule =>
          unfold parse_at_rule
          try simp only []
          rw [parse_until_before_fst]
          try simp only []
          rw [hpre, hnext]
          exact ⟨_, _, rfl, hq1, hp2, hp3, hq4⟩
        | WithBlock prelude =>
          unfold parse_at_rule
          try simp only []
          rw [parse_until_before_fst]
          try simp only []
          rw [hpre, hnext]
          exact ⟨_, _, rfl, hq1, hp2, hp3, hq4⟩
        | OptionalBlock prelude =>
          unfold parse_at_rule
          try simp only []
          rw [parse_until_before_fst]
          try simp only []
          rw [hpre, hnext]
          exact ⟨_, _, rfl, hq1, hp2, hp3, hq4⟩
    · -- stopped at a curly-bracket block
      cases hpre : (parser.parse_prelude name
          { input with stop := input.stop.union (Delimiter.Semicolon.union Delimiter.CurlyBracketBlock) }).1 with
      | error e =>
        cases e
        unfold parse_at_rule
        try simp only []
        rw [parse_until_before_fst]
        try simp only []
        rw [hpre, hnext]
        exact ⟨_, _, rfl, hq1, hp2, hp3, hq4⟩
      | ok art =>
        cases art with
        | WithoutBlock rule =>
          unfold parse_at_rule
          try simp only []
          rw [parse_until_before_fst]
          try simp only []
          rw [hpre, hnext]
          exact ⟨_, _, rfl, hq1, hp2, hp3, hq4⟩
        | WithBlock prelude =>
          unfold parse_at_rule
          try simp only []
          rw [parse_until_before_fst]
          try simp only []
          rw [hpre, hnext]
          try simp only []
          rw [parse_nested_block_fst]
          try simp only []
          cases hblk : (parser.parse_block prelude
              { tokens := cs, pos := 0, stop := Delimiters.emptySet }).1 with
          | ok rule => exact ⟨_, _, rfl, hq1, hp2, hp3, hq4⟩
          | error e => cases e; exact ⟨_, _, rfl, hq1, hp2, hp3, hq4⟩
        | OptionalBlock prelude =>
          unfold parse_at_rule
          try simp only []
          rw [parse_until_before_fst]
          try simp only []
          rw [hpre, hnext]
          try simp only []
          rw [parse_nested_block_fst]
          try simp only []
          cases hblk : (parser.parse_block prelude
              { tokens := cs, pos := 0, stop := Delimiters.emptySet }).1 with
          | ok rule => exact ⟨_, _, rfl, hq1, hp2, hp3, hq4⟩
          | error e => cases e; exact ⟨_, _, rfl, hq1, hp2, hp3, hq4⟩

theorem scanCount_pos {stop : Delimiters} {l : List Token} {t : Token}
    (h : l.head? = some t) (hs : stop.stopsAt t = false) : 1 ≤ scanCount stop l := by
  cases l with
  | nil => cases h
  | cons a rest =>
    simp only [List.head?, Option.some.injEq] at h
    subst h
    simp [scanCount, hs]

theorem parse_qualified_rule_snd {P R : Type} (input : Parser)
    (parser : QualifiedRuleParserImpl P R) :
    (parse_qualified_rule input parser).2
      = (((input.parse_until_before Delimiter.CurlyBracketBlock
            (fun input => parser.parse_prelude input)).2).next).2 := by
  unfold parse_qualified_rule
  simp only []
  cases hnext : ((input.parse_until_before Delimiter.CurlyBracketBlock
      (fun input => parser.parse_prelude input)).2).next with
  | mk o q =>
    cases o with
    | none => rfl
    | some t =>
      cases t <;>
        first
          | rfl
          | (cases hpre : (input.parse_until_before Delimiter.CurlyBracketBlock
                (fun input => parser.parse_prelude input)).1 <;> rfl)

theorem parse_qualified_rule_progress {P R : Type} (input : Parser)
    (parser : QualifiedRuleParserImpl P R) {t : Token}
    (hx : (input.tokens.drop input.pos).head? = some t)
    (hs : input.stop.stopsAt t = false) :
    input.pos < (parse_qualified_rule input parser).2.pos ∧
    (parse_qualified_rule input parser).2.tokens = input.tokens ∧
    (parse_qualified_rule input parser).2.stop = input.stop ∧
    (input.pos ≤ input.tokens.length →
      (parse_qualified_rule input parser).2.pos ≤ input.tokens.length) := by
  rw [parse_qualified_rule_snd]
  have hb := next_bounds ((input.parse_until_before Delimiter.CurlyBracketBlock
      (fun input => parser.parse_prelude input)).2)
  rw [parse_until_before_snd] at hb
  simp only [] at hb
  obtain ⟨hb1, hb2, hb3, hb4⟩ := hb
  have hsc := scanCount_le (input.stop.union Delimiter.CurlyBracketBlock)
    (input.tokens.drop input.pos)
  rw [List.length_drop] at hsc
  rw [parse_until_before_snd]
  by_cases hu : (input.stop.union Delimiter.CurlyBracketBlock).stopsAt t = true
  · -- the head token is itself the stopping curly-bracket block
    have htc : Delimiter.CurlyBracketBlock.stopsAt t = true := by
      rw [stopsAt_union] at hu
      rcases Bool.or_eq_true_iff.mp hu with h1 | h2
      · rw [hs] at h1; cases h1
      · exact h2
    have hw := stopsAt_not_wsOrComment hu
    have hscan : scanCount (input.stop.union Delimiter.CurlyBracketBlock)
        (input.tokens.drop input.pos) = 0 := by
      cases hc : input.tokens.drop input.pos with
      | nil => rw [hc] at hx; cases hx
      | cons a rest =>
        rw [hc] at hx
        simp only [List.head?, Option.some.injEq] at hx
        subst hx
        simp [scanCount, hu]
    rw [hscan]
    have hnext := Parser.next_eq_some_of_head_tok
      (q := { input with pos := input.pos + 0 }) (t := t)
      (by simpa using hx) hw (by simpa using hs)
    rw [hnext]
    have hlen := head_drop_lt hx
    refine ⟨?_, rfl, rfl, fun h => ?_⟩
    · exact (by omega : input.pos < input.pos + 0 + 1)
    · exact (by omega : input.pos + 0 + 1 ≤ input.tokens.length)
  · rw [Bool.not_eq_true] at hu
    have hpos := scanCount_pos hx hu
    refine ⟨?_, ?_, ?_, fun h => ?_⟩
    · exact lt_of_lt_of_le (by omega : input.pos < input.pos + scanCount
        (input.stop.union Delimiter.CurlyBracketBlock) (input.tokens.drop input.pos)) hb1
    · rw [hb2]
    · rw [hb3]
    · exact le_trans (hb4 (by
        exact (by omega : input.pos + scanCount
          (input.stop.union Delimiter.CurlyBracketBlock) (input.tokens.drop input.pos)
          ≤ input.tokens.length))) (le_refl _)

theorem declNext_step {Q D : Type} (s : DeclarationListParser Q D) :
    (∃ s', s.next = .ok (none, s') ∧ s'.input.tokens = s.input.tokens ∧
       (s.input.stop = Delimiters.emptySet → s'.input.tokens.length ≤ s'.input.pos)) ∨
    (∃ item s', s.next = .ok (some item, s') ∧ s.input.pos < s'.input.pos ∧
       s'.input.tokens = s.input.tokens ∧ s'.input.stop = s.input.stop ∧
       (s.input.pos ≤ s.input.tokens.length → s'.input.pos ≤ s.input.tokens.length)) := by
  obtain ⟨inp, dp, ap⟩ := s
  unfold DeclarationListParser.next
  simp only []
  set k := declSkip inp.stop (inp.tokens.drop inp.pos) with hk
  have hkle := declSkip_le inp.stop (inp.tokens.drop inp.pos)
  rw [← hk, List.length_drop] at hkle
  cases hx : (inp.tokens.drop (inp.pos + k)).head? with
  | none =>
    left
    refine ⟨⟨⟨inp.tokens, inp.pos + k, inp.stop⟩, dp, ap⟩, ?_, rfl, fun _ => ?_⟩
    · rw [nextIncl_none_end (q := ⟨inp.tokens, inp.pos + k, inp.stop⟩) hx]
      try rfl
    · exact head_none_le hx
  | some t =>
    by_cases hs : inp.stop.stopsAt t = true
    · left
      refine ⟨⟨⟨inp.tokens, inp.pos + k, inp.stop⟩, dp, ap⟩, ?_, rfl, fun he => ?_⟩
      · rw [nextIncl_none_stop (q := ⟨inp.tokens, inp.pos + k, inp.stop⟩) hx hs]
        try rfl
      · rw [he, stopsAt_empty] at hs; cases hs
    · rw [Bool.not_eq_true] at hs
      have hlt := head_drop_lt hx
      have hincl := nextIncl_some (q := ⟨inp.tokens, inp.pos + k, inp.stop⟩) hx hs
      right
      cases t
      next name =>
        obtain ⟨ha1, ha2, ha3, ha4⟩ := until_after_bounds
          (⟨inp.tokens, inp.pos + k + 1, inp.stop⟩ : Parser) Delimiter.Semicolon
          (declValueClosure dp name)
        simp only [] at ha1 ha2 ha3 ha4
        cases hres : ((⟨inp.tokens, inp.pos + k + 1, inp.stop⟩ : Parser).parse_until_after
            Delimiter.Semicolon (declValueClosure dp name)).1 with
        | ok d =>
          refine ⟨.ok d, ⟨((⟨inp.tokens, inp.pos + k + 1, inp.stop⟩ : Parser).parse_until_after
              Delimiter.Semicolon (declValueClosure dp name)).2, dp, ap⟩,
            ?_, ?_, ha2, ha3, ?_⟩
          · rw [hincl]
            try simp only []
            rw [hres]
            try rfl
          · simp only []; omega
          · simp only []; intro h; apply ha4; omega
        | error e =>
          cases e
          refine ⟨.error (inp.pos + k,
              ((⟨inp.tokens, inp.pos + k + 1, inp.stop⟩ : Parser).parse_until_after
                Delimiter.Semicolon (declValueClosure dp name)).2.pos),
            ⟨((⟨inp.tokens, inp.pos + k + 1, inp.stop⟩ : Parser).parse_until_after
              Delimiter.Semicolon (declValueClosure dp name)).2, dp, ap⟩,
            ?_, ?_, ha2, ha3, ?_⟩
          · rw [hincl]
            try simp only []
            rw [hres]
            try rfl
          · simp only []; omega
          · simp only []; intro h; apply ha4; omega
      next name =>
        obtain ⟨r, out, heq, hge, htok, hstp, hble⟩ := parse_at_rule_ok (inp.pos + k) name
          (⟨inp.tokens, inp.pos + k + 1, inp.stop⟩ : Parser) ap
        simp only [] at hge htok hstp hble
        refine ⟨r, ⟨out, dp, ap⟩, ?_, ?_, htok, hstp, ?_⟩
        · rw [hincl]
          try simp only []
          rw [heq]
          try rfl
        · simp only []; omega
        · simp only []; intro h; apply hble; omega
      all_goals (
        obtain ⟨ha1, ha2, ha3, ha4⟩ := until_after_bounds
          (⟨inp.tokens, inp.pos + k + 1, inp.stop⟩ : Parser) Delimiter.Semicolon
          (fun (input : Parser) => ((.error () : Except Unit D), input))
        simp only [] at ha1 ha2 ha3 ha4
        cases hres : ((⟨inp.tokens, inp.pos + k + 1, inp.stop⟩ : Parser).parse_until_after
            Delimiter.Semicolon
            (fun (input : Parser) => ((.error () : Except Unit D), input))).1 with
        | ok d =>
          refine ⟨.ok d, ⟨((⟨inp.tokens, inp.pos + k + 1, inp.stop⟩ : Parser).parse_until_after
              Delimiter.Semicolon
              (fun (input : Parser) => ((.error () : Except Unit D), input))).2, dp, ap⟩,
            ?_, ?_, ha2, ha3, ?_⟩
          · rw [hincl]
            try simp only []
            rw [hres]
            try rfl
          · simp only []; omega
          · simp only []; intro h; apply ha4; omega
        | error e =>
          cases e
          refine ⟨.error (inp.pos + k,
              ((⟨inp.tokens, inp.pos + k + 1, inp.stop⟩ : Parser).parse_until_after
                Delimiter.Semicolon
                (fun (input : Parser) => ((.error () : Except Unit D), input))).2.pos),
            ⟨((⟨inp.tokens, inp.pos + k + 1, inp.stop⟩ : Parser).parse_until_after
              Delimiter.Semicolon
              (fun (input : Parser) => ((.error () : Except Unit D), input))).2, dp, ap⟩,
            ?_, ?_, ha2, ha3, ?_⟩
          · rw [hincl]
            try simp only []
            rw [hres]
            try rfl
          · simp only []; omega
          · simp only []; intro h; apply ha4; omega)

set_option maxHeartbeats 1600000 in
theorem ruleNext_step {QP AP R : Type} (s : RuleListParser QP AP R) :
    (∃ s', s.next = .ok (none, s') ∧ s'.input.tokens = s.input.tokens ∧
       (s.input.stop = Delimiters.emptySet → s'.input.tokens.length ≤ s'.input.pos)) ∨
    (∃ item s', s.next = .ok (some item, s') ∧ s.input.pos < s'.input.pos ∧
       s'.input.tokens = s.input.tokens ∧ s'.input.stop = s.input.stop ∧
       (s.input.pos ≤ s.input.tokens.length → s'.input.pos ≤ s.input.tokens.length)) := by
  obtain ⟨inp, qp, ap, issty⟩ := s
  unfold RuleListParser.next
  simp only []
  set k := ruleSkip issty inp.stop (inp.tokens.drop inp.pos) with hk
  have hkle := ruleSkip_le issty inp.stop (inp.tokens.drop inp.pos)
  rw [← hk, List.length_drop] at hkle
  cases hx : (inp.tokens.drop (inp.pos + k)).head? with
  | none =>
    left
    refine ⟨⟨⟨inp.tokens, inp.pos + k, inp.stop⟩, qp, ap, issty⟩, ?_, rfl, fun _ => ?_⟩
    · rw [nextIncl_none_end (q := ⟨inp.tokens, inp.pos + k, inp.stop⟩) hx]
      try rfl
    · exact head_none_le hx
  | some t =>
    by_cases hs : inp.stop.stopsAt t = true
    · left
      refine ⟨⟨⟨inp.tokens, inp.pos + k, inp.stop⟩, qp, ap, issty⟩, ?_, rfl, fun he => ?_⟩
      · rw [nextIncl_none_stop (q := ⟨inp.tokens, inp.pos + k, inp.stop⟩) hx hs]
        try rfl
      · rw [he, stopsAt_empty] at hs; cases hs
    · rw [Bool.not_eq_true] at hs
      have hlt := head_drop_lt hx
      have hincl := nextIncl_some (q := ⟨inp.tokens, inp.pos + k, inp.stop⟩) hx hs
      right
      cases t
      next name =>
        -- ident: falls to the qualified-rule branch
        obtain ⟨hg1, hg2, hg3, hg4⟩ := parse_qualified_rule_progress
          (⟨inp.tokens, inp.pos + k, inp.stop⟩ : Parser) qp hx hs
        simp only [] at hg1 hg2 hg3 hg4
        cases hres : (parse_qualified_rule
            (⟨inp.tokens, inp.pos + k, inp.stop⟩ : Parser) qp).1 with
        | ok rule =>
          refine ⟨.ok rule, ⟨(parse_qualified_rule
              (⟨inp.tokens, inp.pos + k, inp.stop⟩ : Parser) qp).2, qp, ap, issty⟩,
            ?_, ?_, hg2, hg3, ?_⟩
          · rw [hincl]
            try simp only []
            rw [hres]
            try rfl
          · simp only []; omega
          · simp only []; intro h; apply hg4; omega
        | error e =>
          cases e
          refine ⟨.error (inp.pos + k, (parse_qualified_rule
              (⟨inp.tokens, inp.pos + k, inp.stop⟩ : Parser) qp).2.pos),
            ⟨(parse_qualified_rule
              (⟨inp.tokens, inp.pos + k, inp.stop⟩ : Parser) qp).2, qp, ap, issty⟩,
            ?_, ?_, hg2, hg3, ?_⟩
          · rw [hincl]
            try simp only []
            rw [hres]
            try rfl
          · simp only []; omega
          · simp only []; intro h; apply hg4; omega
      next name =>
        -- at-keyword
        obtain ⟨r, out, heq, hge, htok, hstp, hble⟩ := parse_at_rule_ok (inp.pos + k) name
          (⟨inp.tokens, inp.pos + k + 1, inp.stop⟩ : Parser) ap
        simp only [] at hge htok hstp hble
        refine ⟨r, ⟨out, qp, ap, issty⟩, ?_, ?_, htok, hstp, ?_⟩
        · rw [hincl]
          try simp only []
          rw [heq]
          try rfl
        · simp only []; omega
        · simp only []; intro h; apply hble; omega
      all_goals (
        obtain ⟨hg1, hg2, hg3, hg4⟩ := parse_qualified_rule_progress
          (⟨inp.tokens, inp.pos + k, inp.stop⟩ : Parser) qp hx hs
        simp only [] at hg1 hg2 hg3 hg4
        cases hres : (parse_qualified_rule
            (⟨inp.tokens, inp.pos + k, inp.stop⟩ : Parser) qp).1 with
        | ok rule =>
          refine ⟨.ok rule, ⟨(parse_qualified_rule
              (⟨inp.tokens, inp.pos + k, inp.stop⟩ : Parser) qp).2, qp, ap, issty⟩,
            ?_, ?_, hg2, hg3, ?_⟩
          · rw [hincl]
            try simp only []
            rw [hres]
            try rfl
          · simp only []; omega
          · simp only []; intro h; apply hg4; omega
        | error e =>
          cases e
          refine ⟨.error (inp.pos + k, (parse_qualified_rule
              (⟨inp.tokens, inp.pos + k, inp.stop⟩ : Parser) qp).2.pos),
            ⟨(parse_qualified_rule
              (⟨inp.tokens, inp.pos + k, inp.stop⟩ : Parser) qp).2, qp, ap, issty⟩,
            ?_, ?_, hg2, hg3, ?_⟩
          · rw [hincl]
            try simp only []
            rw [hres]
            try rfl
          · simp only []; omega
          · simp only []; intro h; apply hg4; omega)

theorem declItemsAux_sound {Q D : Type} : ∀ (fuel : Nat) (s : DeclarationListParser Q D),
    s.input.pos ≤ s.input.tokens.length →
    s.input.tokens.length + 1 - s.input.pos ≤ fuel →
    ∃ l, declItemsAux fuel s = .ok l ∧
      l.length ≤ s.input.tokens.length - s.input.pos := by
  intro fuel
  induction fuel with
  | zero => intro s h1 h2; omega
  | succ fuel ih =>
    intro s h1 h2
    rcases declNext_step s with ⟨s', hnext, htok, _⟩ | ⟨item, s', hnext, hlt, htok, _, hle⟩
    · refine ⟨[], ?_, by simp⟩
      unfold declItemsAux
      rw [hnext]
    · have h1' : s'.input.pos ≤ s'.input.tokens.length := by rw [htok]; exact hle h1
      have h2' : s'.input.tokens.length + 1 - s'.input.pos ≤ fuel := by rw [htok]; omega
      obtain ⟨l, hl, hlen⟩ := ih s' h1' h2'
      refine ⟨item :: l, ?_, ?_⟩
      · unfold declItemsAux
        rw [hnext]
        simp only []
        rw [hl]
      · simp only [List.length_cons]
        rw [htok] at hlen
        omega

theorem declItemsAux_stable {Q D : Type} : ∀ (fuel fuel' : Nat) (s : DeclarationListParser Q D),
    s.input.pos ≤ s.input.tokens.length →
    s.input.tokens.length + 1 - s.input.pos ≤ fuel →
    s.input.tokens.length + 1 - s.input.pos ≤ fuel' →
    declItemsAux fuel s = declItemsAux fuel' s := by
  intro fuel
  induction fuel with
  | zero => intro fuel' s h1 h2 h3; omega
  | succ fuel ih =>
    intro fuel' s h1 h2 h3
    cases fuel' with
    | zero => omega
    | succ fuel' =>
      rcases declNext_step s with ⟨s', hnext, htok, _⟩ | ⟨item, s', hnext, hlt, htok, _, hle⟩
      · unfold declItemsAux
        rw [hnext]
      · have h1' : s'.input.pos ≤ s'.input.tokens.length := by rw [htok]; exact hle h1
        have h2' : s'.input.tokens.length + 1 - s'.input.pos ≤ fuel := by rw [htok]; omega
        have h3' : s'.input.tokens.length + 1 - s'.input.pos ≤ fuel' := by rw [htok]; omega
        unfold declItemsAux
        rw [hnext]
        simp only []
        rw [ih fuel' s' h1' h2' h3']

theorem ruleItemsAux_sound {QP AP R : Type} : ∀ (fuel : Nat) (s : RuleListParser QP AP R),
    s.input.pos ≤ s.input.tokens.length →
    s.input.tokens.length + 1 - s.input.pos ≤ fuel →
    ∃ l, ruleItemsAux fuel s = .ok l ∧
      l.length ≤ s.input.tokens.length - s.input.pos := by
  intro fuel
  induction fuel with
  | zero => intro s h1 h2; omega
  | succ fuel ih =>
    intro s h1 h2
    rcases ruleNext_step s with ⟨s', hnext, htok, _⟩ | ⟨item, s', hnext, hlt, htok, _, hle⟩
    · refine ⟨[], ?_, by simp⟩
      unfold ruleItemsAux
      rw [hnext]
    · have h1' : s'.input.pos ≤ s'.input.tokens.length := by rw [htok]; exact hle h1
      have h2' : s'.input.tokens.length + 1 - s'.input.pos ≤ fuel := by rw [htok]; omega
      obtain ⟨l, hl, hlen⟩ := ih s' h1' h2'
      refine ⟨item :: l, ?_, ?_⟩
      · unfold ruleItemsAux
        rw [hnext]
        simp only []
        rw [hl]
      · simp only [List.length_cons]
        rw [htok] at hlen
        omega

theorem ruleItemsAux_stable {QP AP R : Type} : ∀ (fuel fuel' : Nat) (s : RuleListParser QP AP R),
    s.input.pos ≤ s.input.tokens.length →
    s.input.tokens.length + 1 - s.input.pos ≤ fuel →
    s.input.tokens.length + 1 - s.input.pos ≤ fuel' →
    ruleItemsAux fuel s = ruleItemsAux fuel' s := by
  intro fuel
  induction fuel with
  | zero => intro fuel' s h1 h2 h3; omega
  | succ fuel ih =>
    intro fuel' s h1 h2 h3
    cases fuel' with
    | zero => omega
    | succ fuel' =>
      rcases ruleNext_step s with ⟨s', hnext, htok, _⟩ | ⟨item, s', hnext, hlt, htok, _, hle⟩
      · unfold ruleItemsAux
        rw [hnext]
      · have h1' : s'.input.pos ≤ s'.input.tokens.length := by rw [htok]; exact hle h1
        have h2' : s'.input.tokens.length + 1 - s'.input.pos ≤ fuel := by rw [htok]; omega
        have h3' : s'.input.tokens.length + 1 - s'.input.pos ≤ fuel' := by rw [htok]; omega
        unfold ruleItemsAux
        rw [hnext]
        simp only []
        rw [ih fuel' s' h1' h2' h3']

/-- Claim C9: for every finite input token stream and every choice of
user-supplied callback parsers, iterating `DeclarationListParser::next`
and `RuleListParser::next` terminates: each call returns (never panics),
yielding either `none` — at end-of-input when no outer delimiter is set —
or an item after consuming at least one token; consequently the full
iteration `items` succeeds with at most one item per remaining input
token, and adding fuel beyond the token count never changes its result. -/
theorem iteration_terminates {Q D QP AP R : Type}
    (s : DeclarationListParser Q D) (r : RuleListParser QP AP R)
    (hs : s.input.pos ≤ s.input.tokens.length)
    (hr : r.input.pos ≤ r.input.tokens.length) :
    ((∃ s', s.next = .ok (none, s') ∧
        (s.input.stop = Delimiters.emptySet → s'.input.tokens.length ≤ s'.input.pos)) ∨
      (∃ item s', s.next = .ok (some item, s') ∧ s.input.pos < s'.input.pos)) ∧
    (∃ l, s.items = .ok l ∧ l.length ≤ s.input.tokens.length - s.input.pos) ∧
    (∀ extra, declItemsAux (s.input.tokens.length + 1 - s.input.pos + extra) s = s.items) ∧
    ((∃ r', r.next = .ok (none, r') ∧
        (r.input.stop = Delimiters.emptySet → r'.input.tokens.length ≤ r'.input.pos)) ∨
      (∃ item r', r.next = .ok (some item, r') ∧ r.input.pos < r'.input.pos)) ∧
    (∃ l, r.items = .ok l ∧ l.length ≤ r.input.tokens.length - r.input.pos) ∧
    (∀ extra, ruleItemsAux (r.input.tokens.length + 1 - r.input.pos + extra) r = r.items) := by
  refine ⟨?_, ?_, ?_, ?_, ?_, ?_⟩
  · rcases declNext_step s with ⟨s', hnext, _, hend⟩ | ⟨item, s', hnext, hlt, _, _, _⟩
    · exact .inl ⟨s', hnext, hend⟩
    · exact .inr ⟨item, s', hnext, hlt⟩
  · exact declItemsAux_sound _ s hs (le_refl _)
  · intro extra
    exact declItemsAux_stable _ _ s hs (by omega) (le_refl _)
  · rcases ruleNext_step r with ⟨r', hnext, _, hend⟩ | ⟨item, r', hnext, hlt, _, _, _⟩
    · exact .inl ⟨r', hnext, hend⟩
    · exact .inr ⟨item, r', hnext, hlt⟩
  · exact ruleItemsAux_sound _ r hr (le_refl _)
  · intro extra
    exact ruleItemsAux_stable _ _ r hr (by omega) (le_refl _)

theorem iteration_terminates_witness :
    ((∃ s', colorRedDeclList.next = .ok (none, s') ∧
        (colorRedDeclList.input.stop = Delimiters.emptySet →
          s'.input.tokens.length ≤ s'.input.pos)) ∨
      (∃ item s', colorRedDeclList.next = .ok (some item, s') ∧
        colorRedDeclList.input.pos < s'.input.pos)) ∧
    (∃ l, colorRedDeclList.items = .ok l ∧
      l.length ≤ colorRedDeclList.input.tokens.length - colorRedDeclList.input.pos) ∧
    (∀ extra, declItemsAux
        (colorRedDeclList.input.tokens.length + 1 - colorRedDeclList.input.pos + extra)
        colorRedDeclList = colorRedDeclList.items) ∧
    ((∃ r', witRuleList.next = .ok (none, r') ∧
        (witRuleList.input.stop = Delimiters.emptySet →
          r'.input.tokens.length ≤ r'.input.pos)) ∨
      (∃ item r', witRuleList.next = .ok (some item, r') ∧
        witRuleList.input.pos < r'.input.pos)) ∧
    (∃ l, witRuleList.items = .ok l ∧
      l.length ≤ witRuleList.input.tokens.length - witRuleList.input.pos) ∧
    (∀ extra, ruleItemsAux
        (witRuleList.input.tokens.length + 1 - witRuleList.input.pos + extra)
        witRuleList = witRuleList.items) :=
  iteration_terminates colorRedDeclList witRuleList (by decide) (by decide)
